import Mathlib

/-!
Shallow embedding of `Traverser::traverse` from `include/FastBVH/Traverser.h`
(meshula/Fast-BVH), together with the external collaborators it consumes
(`Intersection`, `closest`, the flattened-node accessors and the bounding-box
ray test), which are not part of the traversal source and are therefore
modelled from the specification's contracts.

The scalar type `Float` of the template is embedded as `ℚ`; the sentinel
`t = +infinity` of an invalid `Intersection` is embedded as `⊤ : WithTop ℚ`.
The traversal loop is embedded with explicit fuel; a measure argument shows
that the fuel `3 ^ nodes.size` used by `traverse` always suffices, so the
embedding computes exactly the value the (terminating) loop computes.
-/

namespace FastBVH

/-- Modelled from the spec: the `Intersection` result record (not part of the
traversal source).  It carries a hit distance `t` along the ray, with
`t = +infinity` (here `⊤ : WithTop ℚ`) as the conventional "no hit yet"
sentinel, and an identifying payload `prim`; `prim = none` means the
intersection is invalid ("no hit"). -/
structure Intersection (P : Type) where
  t : WithTop ℚ
  prim : Option P
deriving DecidableEq

/-- An `Intersection` is valid exactly when it carries a payload; this embeds
the `operator bool` conversion used by `if (current)` in the leaf loop. -/
def Intersection.valid {P : Type} (a : Intersection P) : Bool :=
  a.prim.isSome

/-- The default-constructed `Intersection`: invalid, with the `+infinity`
sentinel distance.  This is the initial value of the running best hit. -/
instance {P : Type} : Inhabited (Intersection P) :=
  ⟨⟨⊤, none⟩⟩

/-- Modelled from the spec: the merge rule `closest(a, b)` (not part of the
traversal source).  It returns the operand with the smaller valid `t`; an
invalid operand loses to any valid one; two invalid operands yield an invalid
result. -/
def closest {P : Type} (a b : Intersection P) : Intersection P :=
  if ¬ a.valid then b
  else if ¬ b.valid then a
  else if a.t < b.t then a else b

/-- A node of the flattened BVH array (the fields of `BVH::Node` that the
traversal reads): leaf primitive range `start`/`nPrims` and the right-child
offset, with `rightOffset = 0` marking a leaf.  The node's bounding box is
identified by the node's array index through `Env.boxIntersect`. -/
structure Node where
  start : Nat
  nPrims : Nat
  rightOffset : Nat
deriving DecidableEq, Inhabited

/-- Total read of the flattened node array, `flatTree[j]`: the well-formed
traversals proved about below never read out of bounds, and an out-of-bounds
read is mapped to the all-zero node (a leaf with no primitives). -/
def nodeAt (ns : Array Node) (j : Nat) : Node :=
  if h : j < ns.size then ns[j] else default

/-- Total read of the primitive array, `build_prims[k]`. -/
def primAt {P : Type} [Inhabited P] (prims : Array P) (k : Nat) : P :=
  if h : k < prims.size then prims[k] else default

/-- Node for storing state information during traversal
(`TraverserImpl::Traversal`): a node index and the minimum hit time `mint`
at which the ray enters that node's bounding box. -/
structure Traversal where
  i : Nat
  mint : ℚ
deriving DecidableEq

/-- Everything a `Traverser` reads: the flattened node array and primitive
array of the BVH (`bvh.getNodes()` / `bvh.getPrimitives()`), the caller's
intersector, and the external bounding-box ray test.  `boxIntersect j ray`
models `flatTree[j].bbox.intersect(ray, bbhits, bbhits+1)`: `none` is a miss
and `some (tnear, tfar)` the two scalar hit parameters it writes. -/
structure Env (P R : Type) where
  nodes : Array Node
  prims : Array P
  intersector : P → R → Intersection P
  boxIntersect : Nat → R → Option (ℚ × ℚ)

/-- The leaf loop of `traverse` (`for(uint32_t o=0;o<node.nPrims;++o) ...`),
scanning `nPrims` primitives starting at array index `idx`.  `.error hit` is
the early `return current` taken in occlusion mode on the first valid hit;
`.ok best` is normal fall-through with the updated running best. -/
def leafScan {P R : Type} [Inhabited P] (sector : P → R → Intersection P)
    (prims : Array P) (ray : R) (occl : Bool) :
    Nat → Nat → Intersection P → Except (Intersection P) (Intersection P)
  | _, 0, best => .ok best
  | idx, n+1, best =>
    let current := sector (primAt prims idx) ray
    if current.valid then
      if occl then .error current
      else leafScan sector prims ray occl (idx+1) n (closest best current)
    else leafScan sector prims ray occl (idx+1) n best

/-- The internal-node branch of `traverse` (lines 101-138): test both
children's boxes, and build the entries pushed onto the traversal stack, the
closer child (ties going to the left child, since the swap fires only on a
strict `bbhits[2] < bbhits[0]`) ending on top.  The list is returned
top-of-stack first; each child is pushed with its own box entry distance. -/
def childEntries {R : Type} (nodes : Array Node)
    (boxI : Nat → R → Option (ℚ × ℚ)) (ray : R) (ni : Nat) : List Traversal :=
  let node := nodeAt nodes ni
  match boxI (ni+1) ray, boxI (ni + node.rightOffset) ray with
  | some (t0, _), some (t1, _) =>
    if t1 < t0 then
      [⟨ni + node.rightOffset, t1⟩, ⟨ni + 1, t0⟩]
    else
      [⟨ni + 1, t0⟩, ⟨ni + node.rightOffset, t1⟩]
  | some (t0, _), none => [⟨ni + 1, t0⟩]
  | none, some (t1, _) => [⟨ni + node.rightOffset, t1⟩]
  | none, none => []

/-- The `while(stackptr>=0)` loop of `traverse`, with explicit fuel.  The
list is the `todo` stack, head = top (`todo[stackptr]`).  The second
component of the result is the maximum number of stack entries that were ever
live at the start of an iteration (so `result.2 - 1` is the largest value
`stackptr` takes); it observes but never influences the computation. -/
def traverseAux {P R : Type} [Inhabited P] (env : Env P R) (ray : R)
    (occl : Bool) : Nat → List Traversal → Intersection P →
    Intersection P × Nat
  | _, [], best => (best, 0)
  | 0, stack, best => (best, stack.length)
  | fuel+1, e :: rest, best =>
    let node := nodeAt env.nodes e.i
    let inner :=
      if (e.mint : WithTop ℚ) > best.t then
        traverseAux env ray occl fuel rest best
      else if node.rightOffset = 0 then
        match leafScan env.intersector env.prims ray occl
            node.start node.nPrims best with
        | .error hit => (hit, 0)
        | .ok best2 => traverseAux env ray occl fuel rest best2
      else
        traverseAux env ray occl fuel
          (childEntries env.nodes env.boxIntersect ray e.i ++ rest) best
    (inner.1, max (e :: rest).length inner.2)

/-- The initial working set: the root node, index `0`, pushed with the
sentinel entry distance `-9999999` (`todo[0].mint = -9999999.f`). -/
def initStack : List Traversal :=
  [⟨0, -9999999⟩]

/-- `Traverser::traverse(ray, occlusion)`: run the stack loop from the root
with the default (invalid) running intersection.  The fuel `3 ^ nodes.size`
is shown below to be sufficient for the loop to run to completion. -/
def traverse {P R : Type} [Inhabited P] (env : Env P R) (ray : R)
    (occl : Bool) : Intersection P :=
  (traverseAux env ray occl (3 ^ env.nodes.size) initStack default).1

/-- The largest number of simultaneously live `todo` entries over a whole
call of `traverse` (so `traverseMaxStack - 1` is the largest value taken by
`stackptr`, and writes stay inside `todo[64]` iff this is `≤ 64`). -/
def traverseMaxStack {P R : Type} [Inhabited P] (env : Env P R) (ray : R)
    (occl : Bool) : Nat :=
  (traverseAux env ray occl (3 ^ env.nodes.size) initStack default).2

/-- The variant of the traversal loop considered by the pruning-equivalence
property: identical to `traverseAux` except that the prune check
`if(near > intersection.t) continue;` (lines 80-82) is removed. -/
def traverseNPAux {P R : Type} [Inhabited P] (env : Env P R) (ray : R)
    (occl : Bool) : Nat → List Traversal → Intersection P →
    Intersection P × Nat
  | _, [], best => (best, 0)
  | 0, stack, best => (best, stack.length)
  | fuel+1, e :: rest, best =>
    let node := nodeAt env.nodes e.i
    let inner :=
      if node.rightOffset = 0 then
        match leafScan env.intersector env.prims ray occl
            node.start node.nPrims best with
        | .error hit => (hit, 0)
        | .ok best2 => traverseNPAux env ray occl fuel rest best2
      else
        traverseNPAux env ray occl fuel
          (childEntries env.nodes env.boxIntersect ray e.i ++ rest) best
    (inner.1, max (e :: rest).length inner.2)

/-- Nearest-mode traversal with the near-distance prune check removed. -/
def traverseNP {P R : Type} [Inhabited P] (env : Env P R) (ray : R)
    (occl : Bool) : Intersection P :=
  (traverseNPAux env ray occl (3 ^ env.nodes.size) initStack default).1

/-- The intersector's answer for the primitive stored at array index `q`. -/
def hitOf {P R : Type} [Inhabited P] (env : Env P R) (ray : R) (q : Nat) :
    Intersection P :=
  env.intersector (primAt env.prims q) ray

/-- The brute-force reference scan of the spec: apply the intersector to
every primitive in the primitive array and fold the results with `closest`,
starting from the default (invalid) intersection. -/
def bruteForce {P R : Type} [Inhabited P] (env : Env P R) (ray : R) :
    Intersection P :=
  (List.range env.prims.size).foldl (fun acc q => closest acc (hitOf env ray q))
    default

/-- Weight of one stack entry for the termination measure: entries for
deeper array indices weigh less, and every replacement of a popped entry by
its (strictly larger-indexed) children strictly shrinks the total weight. -/
def entryWeight (numNodes : Nat) (e : Traversal) : Nat :=
  3 ^ (numNodes - e.i)

/-- Termination measure of a traversal stack: total weight of its entries.
It strictly decreases at every loop iteration, so it bounds the number of
iterations left. -/
def stackMeasure (numNodes : Nat) (s : List Traversal) : Nat :=
  (s.map (entryWeight numNodes)).sum

/-- The loop run with exactly sufficient fuel; by `traverseAux_fuel_irrel`
below, this is the value of the loop for every sufficient fuel. -/
def runAux {P R : Type} [Inhabited P] (env : Env P R) (ray : R) (occl : Bool)
    (s : List Traversal) (best : Intersection P) : Intersection P × Nat :=
  traverseAux env ray occl (stackMeasure env.nodes.size s) s best

/-- The no-prune loop run with exactly sufficient fuel. -/
def runNPAux {P R : Type} [Inhabited P] (env : Env P R) (ray : R)
    (occl : Bool) (s : List Traversal) (best : Intersection P) :
    Intersection P × Nat :=
  traverseNPAux env ray occl (stackMeasure env.nodes.size s) s best

/-- Maximum root-to-leaf depth of the (finite, in-bounds) subtree rooted at
array index `j` is at most `d`.  This is also the well-formedness predicate
for the flattened tree: it forces every reachable index into bounds and the
child-offset structure to describe a finite binary tree. -/
inductive DepthLE (ns : Array Node) : Nat → Nat → Prop where
  | leaf {j d} : j < ns.size → (nodeAt ns j).rightOffset = 0 →
      DepthLE ns j (d + 1)
  | node {j d} : j < ns.size → (nodeAt ns j).rightOffset ≠ 0 →
      DepthLE ns (j + 1) d →
      DepthLE ns (j + (nodeAt ns j).rightOffset) d →
      DepthLE ns j (d + 1)

/-- Primitive array index `q` belongs to (a leaf of) the subtree rooted at
node index `j`. -/
inductive PrimUnder (ns : Array Node) : Nat → Nat → Prop where
  | leaf {j q} : j < ns.size → (nodeAt ns j).rightOffset = 0 →
      (nodeAt ns j).start ≤ q →
      q < (nodeAt ns j).start + (nodeAt ns j).nPrims →
      PrimUnder ns j q
  | left {j q} : j < ns.size → (nodeAt ns j).rightOffset ≠ 0 →
      PrimUnder ns (j + 1) q → PrimUnder ns j q
  | right {j q} : j < ns.size → (nodeAt ns j).rightOffset ≠ 0 →
      PrimUnder ns (j + (nodeAt ns j).rightOffset) q →
      PrimUnder ns j q

/-- The semantic content, for one fixed ray, of "every node's bounding box
encloses all primitives of its subtree" together with the intersector
reporting hits only where the ray really meets the primitive: whenever the
intersector reports a valid hit for a primitive lying under node `j`, the
ray also hits node `j`'s box, and enters it no later than that hit. -/
def EnclosureOK {P R : Type} [Inhabited P] (env : Env P R) (ray : R) : Prop :=
  ∀ j q, PrimUnder env.nodes j q → (hitOf env ray q).valid = true →
    ∃ tn tf, env.boxIntersect j ray = some (tn, tf) ∧
      (tn : WithTop ℚ) ≤ (hitOf env ray q).t

/-- The `Intersection` sentinel convention of the spec: an invalid
intersection carries the unreachable distance `⊤`. -/
def Tidy {P : Type} (a : Intersection P) : Prop :=
  a.prim = none → a.t = ⊤

/-- A stack entry over a well-formed subtree whose `mint` really is a lower
bound for every primitive hit inside that subtree (as holds for every entry
the loop itself pushes, by `EnclosureOK`). -/
def GoodEntry {P R : Type} [Inhabited P] (env : Env P R) (ray : R)
    (e : Traversal) : Prop :=
  (∃ d, DepthLE env.nodes e.i d) ∧
  ∀ q, PrimUnder env.nodes e.i q → (hitOf env ray q).valid = true →
    (e.mint : WithTop ℚ) ≤ (hitOf env ray q).t

/-- Some primitive under some entry of the stack. -/
def StackPrim (ns : Array Node) (s : List Traversal) (q : Nat) : Prop :=
  ∃ e ∈ s, PrimUnder ns e.i q

/-- Capacity invariant for the `todo[64]` array: every stack entry `e`,
with `k` entries strictly below it, roots a subtree of depth at most
`cap - k`; it follows that the stack never holds more than `cap` entries. -/
def StackInv (ns : Array Node) : List Traversal → Nat → Prop
  | [], _ => True
  | e :: rest, cap =>
    (∃ d, DepthLE ns e.i d ∧ d + rest.length ≤ cap) ∧ StackInv ns rest cap

/-- The intersector's answer for the primitive at array index `k`, stated on
the components a `leafScan` receives. -/
def hitAt {P R : Type} [Inhabited P] (sector : P → R → Intersection P)
    (prims : Array P) (ray : R) (k : Nat) : Intersection P :=
  sector (primAt prims k) ray

/-- A concrete single-leaf environment used to instantiate the theorems: one
root leaf owning the single primitive `7`, an intersector that always hits at
distance `5`, and a box test that always reports entry `1`, exit `2`. -/
def envW : Env Nat Unit where
  nodes := #[⟨0, 1, 0⟩]
  prims := #[7]
  intersector := fun p _ => ⟨(5 : ℚ), some p⟩
  boxIntersect := fun _ _ => some (1, 2)

/-- A three-node environment (internal root, two leaves, one primitive per
leaf, each with hit distance equal to its value) used to instantiate the
theorems about internal-node behaviour. -/
def envW2 : Env Nat Unit where
  nodes := #[⟨0, 0, 2⟩, ⟨0, 1, 0⟩, ⟨1, 1, 0⟩]
  prims := #[3, 4]
  intersector := fun p _ => ⟨(p : ℚ), some p⟩
  boxIntersect := fun j _ =>
    if j = 1 then some (1, 2) else if j = 2 then some (2, 3) else some (0, 1)

/-- A single-leaf environment whose box test always misses and whose
intersector never hits, used to instantiate the no-hit theorems. -/
def envW3 : Env Nat Unit where
  nodes := #[⟨0, 1, 0⟩]
  prims := #[7]
  intersector := fun _ _ => ⟨⊤, none⟩
  boxIntersect := fun _ _ => none

/-- An environment whose root is an empty leaf (`nPrims = 0`), used to
instantiate the empty-leaf theorems. -/
def envW4 : Env Nat Unit where
  nodes := #[⟨0, 0, 0⟩]
  prims := #[]
  intersector := fun p _ => ⟨(5 : ℚ), some p⟩
  boxIntersect := fun _ _ => none

/-- `envW2` with different box exit distances (same hit flags, same entry
distances), used to instantiate the exit-distance-irrelevance theorem. -/
def envW2b : Env Nat Unit where
  nodes := #[⟨0, 0, 2⟩, ⟨0, 1, 0⟩, ⟨1, 1, 0⟩]
  prims := #[3, 4]
  intersector := fun p _ => ⟨(p : ℚ), some p⟩
  boxIntersect := fun j _ =>
    if j = 1 then some (1, 9) else if j = 2 then some (2, 7) else some (0, 5)

/-- `envW` with a box test that misses at the root index but agrees
elsewhere, used to instantiate the root-box-never-tested theorem. -/
def envW5 : Env Nat Unit where
  nodes := #[⟨0, 1, 0⟩]
  prims := #[7]
  intersector := fun p _ => ⟨(5 : ℚ), some p⟩
  boxIntersect := fun j _ => if j = 0 then none else some (1, 2)

theorem hitOf_eq_hitAt {P R : Type} [Inhabited P] (env : Env P R) (ray : R)
    (q : Nat) : hitOf env ray q = hitAt env.intersector env.prims ray q := rfl

theorem valid_false_iff {P : Type} (a : Intersection P) :
    a.valid = false ↔ a.prim = none := by
  cases h : a.prim <;> simp [Intersection.valid, h]

theorem valid_true_iff {P : Type} (a : Intersection P) :
    a.valid = true ↔ ∃ p, a.prim = some p := by
  cases h : a.prim <;> simp [Intersection.valid, h]

theorem tidy_default {P : Type} : Tidy (default : Intersection P) := by
  intro _; rfl

theorem tidy_of_valid {P : Type} (a : Intersection P) (h : a.valid = true) :
    Tidy a := by
  intro hnone
  rw [valid_true_iff] at h
  obtain ⟨p, hp⟩ := h
  rw [hp] at hnone
  cases hnone

theorem tidy_top_of_not_valid {P : Type} (a : Intersection P) (ht : Tidy a)
    (h : ¬ a.valid = true) : a.t = ⊤ := by
  apply ht
  rw [← valid_false_iff]
  simp at h
  exact h

theorem closest_mem {P : Type} (a b : Intersection P) :
    closest a b = a ∨ closest a b = b := by
  unfold closest
  by_cases h1 : ¬ a.valid = true
  · simp [h1]
  by_cases h2 : ¬ b.valid = true
  · simp [h1, h2]
  by_cases h3 : a.t < b.t
  · simp [h1, h2, h3]
  · simp [h1, h2, h3]

theorem closest_valid {P : Type} (a b : Intersection P) :
    (closest a b).valid = (a.valid || b.valid) := by
  unfold closest
  by_cases h1 : a.valid = true
  · by_cases h2 : b.valid = true
    · by_cases h3 : a.t < b.t <;> simp [h1, h2, h3]
    · simp [h1, h2]
  · simp [h1]

theorem closest_t {P : Type} (a b : Intersection P) (ha : Tidy a)
    (hb : Tidy b) : (closest a b).t = min a.t b.t := by
  unfold closest
  by_cases h1 : a.valid = true
  · by_cases h2 : b.valid = true
    · by_cases h3 : a.t < b.t
      · simp [h1, h2, h3, min_eq_left (le_of_lt h3)]
      · simp [h1, h2, h3, min_eq_right (le_of_not_lt h3)]
    · have := tidy_top_of_not_valid b hb h2
      simp [h1, h2, this]
  · have := tidy_top_of_not_valid a ha h1
    simp [h1, this]

theorem closest_tidy {P : Type} (a b : Intersection P) (ha : Tidy a)
    (hb : Tidy b) : Tidy (closest a b) := by
  rcases closest_mem a b with h | h <;> rw [h]
  · exact ha
  · exact hb

theorem leafScan_succ {P R : Type} [Inhabited P]
    (sector : P → R → Intersection P) (prims : Array P) (ray : R)
    (occl : Bool) (idx n : Nat) (best : Intersection P) :
    leafScan sector prims ray occl idx (n+1) best =
      (if (hitAt sector prims ray idx).valid = true then
        (if occl then .error (hitAt sector prims ray idx)
         else leafScan sector prims ray occl (idx+1) n
           (closest best (hitAt sector prims ray idx)))
       else leafScan sector prims ray occl (idx+1) n best) := rfl

/-- Nearest-mode leaf scan: it always falls through with a running best that
is the `closest`-fold of the valid hits in the scanned range into the old
best.  The conjuncts characterise the result's distance, payload origin,
validity and tidiness. -/
theorem leafScan_false_spec {P R : Type} [Inhabited P]
    (sector : P → R → Intersection P) (prims : Array P) (ray : R) :
    ∀ n idx best, Tidy best →
    ∃ best2, leafScan sector prims ray false idx n best = .ok best2 ∧
      Tidy best2 ∧
      best2.t ≤ best.t ∧
      (∀ o, o < n → (hitAt sector prims ray (idx + o)).valid = true →
        best2.t ≤ (hitAt sector prims ray (idx + o)).t) ∧
      (best2 = best ∨ ∃ o, o < n ∧
        (hitAt sector prims ray (idx + o)).valid = true ∧
        best2 = hitAt sector prims ray (idx + o)) ∧
      (best.valid = true → best2.valid = true) ∧
      ((∃ o, o < n ∧ (hitAt sector prims ray (idx + o)).valid = true) →
        best2.valid = true) := by
  intro n
  induction n with
  | zero =>
    intro idx best hbt
    refine ⟨best, rfl, hbt, le_refl _, ?_, Or.inl rfl, fun h => h, ?_⟩
    · intro o ho; omega
    · rintro ⟨o, ho, _⟩; omega
  | succ n ih =>
    intro idx best hbt
    by_cases hv : (hitAt sector prims ray idx).valid = true
    · have hvt : Tidy (hitAt sector prims ray idx) :=
        tidy_of_valid _ hv
      have hbt2 : Tidy (closest best (hitAt sector prims ray idx)) :=
        closest_tidy _ _ hbt hvt
      obtain ⟨best2, heq, ht2, hle, hall, hmem, hvmono, hvex⟩ :=
        ih (idx + 1) (closest best (hitAt sector prims ray idx)) hbt2
      refine ⟨best2, ?_, ht2, ?_, ?_, ?_, ?_, ?_⟩
      · rw [leafScan_succ]
        simp only [hv, if_true]
        simpa using heq
      · calc best2.t ≤ (closest best (hitAt sector prims ray idx)).t := hle
          _ = min best.t (hitAt sector prims ray idx).t :=
            closest_t _ _ hbt hvt
          _ ≤ best.t := min_le_left _ _
      · intro o ho hov
        rcases Nat.eq_zero_or_pos o with rfl | hop
        · calc best2.t ≤ (closest best (hitAt sector prims ray idx)).t := hle
            _ = min best.t (hitAt sector prims ray idx).t :=
              closest_t _ _ hbt hvt
            _ ≤ (hitAt sector prims ray (idx + 0)).t := by
              simp [min_le_right]
        · obtain ⟨o', rfl⟩ : ∃ o', o = o' + 1 := ⟨o - 1, by omega⟩
          have : idx + (o' + 1) = (idx + 1) + o' := by omega
          rw [this]
          exact hall o' (by omega) (by rw [← this]; exact hov)
      · rcases hmem with h | ⟨o, ho, hov, hoe⟩
        · rcases closest_mem best (hitAt sector prims ray idx) with hc | hc
          · exact Or.inl (h.trans hc)
          · exact Or.inr ⟨0, by omega, by simpa using hv, by rw [h, hc]; simp⟩
        · refine Or.inr ⟨o + 1, by omega, ?_, ?_⟩
          · have : idx + (o + 1) = (idx + 1) + o := by omega
            rw [this]; exact hov
          · have : idx + (o + 1) = (idx + 1) + o := by omega
            rw [this]; exact hoe
      · intro hbv
        apply hvmono
        rw [closest_valid, hbv]
        rfl
      · intro _
        apply hvmono
        rw [closest_valid, hv]
        simp
    · obtain ⟨best2, heq, ht2, hle, hall, hmem, hvmono, hvex⟩ :=
        ih (idx + 1) best hbt
      refine ⟨best2, ?_, ht2, hle, ?_, ?_, hvmono, ?_⟩
      · rw [leafScan_succ]
        simp only [hv, if_false]
        simpa using heq
      · intro o ho hov
        rcases Nat.eq_zero_or_pos o with rfl | hop
        · simp at hov
          exact absurd hov hv
        · obtain ⟨o', rfl⟩ : ∃ o', o = o' + 1 := ⟨o - 1, by omega⟩
          have : idx + (o' + 1) = (idx + 1) + o' := by omega
          rw [this]
          exact hall o' (by omega) (by rw [← this]; exact hov)
      · rcases hmem with h | ⟨o, ho, hov, hoe⟩
        · exact Or.inl h
        · refine Or.inr ⟨o + 1, by omega, ?_, ?_⟩
          · have : idx + (o + 1) = (idx + 1) + o := by omega
            rw [this]; exact hov
          · have : idx + (o + 1) = (idx + 1) + o := by omega
            rw [this]; exact hoe
      · rintro ⟨o, ho, hov⟩
        rcases Nat.eq_zero_or_pos o with rfl | hop
        · simp at hov
          exact absurd hov hv
        · obtain ⟨o', rfl⟩ : ∃ o', o = o' + 1 := ⟨o - 1, by omega⟩
          apply hvex
          refine ⟨o', by omega, ?_⟩
          have : idx + (o' + 1) = (idx + 1) + o' := by omega
          rw [← this]; exact hov

/-- Occlusion-mode leaf scan: either no primitive in the range has a valid
hit and the scan falls through with the best unchanged, or some primitive in
the range has a valid hit and the scan returns one such hit early. -/
theorem leafScan_true_spec {P R : Type} [Inhabited P]
    (sector : P → R → Intersection P) (prims : Array P) (ray : R) :
    ∀ n idx best,
      ((∀ o, o < n → (hitAt sector prims ray (idx + o)).valid = false) ∧
        leafScan sector prims ray true idx n best = .ok best) ∨
      (∃ o, o < n ∧ (hitAt sector prims ray (idx + o)).valid = true ∧
        leafScan sector prims ray true idx n best =
          .error (hitAt sector prims ray (idx + o))) := by
  intro n
  induction n with
  | zero =>
    intro idx best
    exact Or.inl ⟨fun o ho => by omega, rfl⟩
  | succ n ih =>
    intro idx best
    by_cases hv : (hitAt sector prims ray idx).valid = true
    · refine Or.inr ⟨0, by omega, by simpa using hv, ?_⟩
      rw [leafScan_succ]
      simp [hv]
    · rcases ih (idx + 1) best with ⟨hnone, heq⟩ | ⟨o, ho, hov, heq⟩
      · refine Or.inl ⟨?_, ?_⟩
        · intro o ho
          rcases Nat.eq_zero_or_pos o with rfl | hop
          · simpa using (Bool.not_eq_true _).mp hv
          · obtain ⟨o', rfl⟩ : ∃ o', o = o' + 1 := ⟨o - 1, by omega⟩
            have : idx + (o' + 1) = (idx + 1) + o' := by omega
            rw [this]
            exact hnone o' (by omega)
        · rw [leafScan_succ]
          simp only [hv, if_false]
          simpa using heq
      · refine Or.inr ⟨o + 1, by omega, ?_, ?_⟩
        · have : idx + (o + 1) = (idx + 1) + o := by omega
          rw [this]; exact hov
        · rw [leafScan_succ]
          simp only [hv, if_false]
          have harith : idx + (o + 1) = (idx + 1) + o := by omega
          rw [harith]
          simpa using heq

theorem entryWeight_pos (numNodes : Nat) (e : Traversal) :
    0 < entryWeight numNodes e := by
  unfold entryWeight
  positivity

theorem stackMeasure_cons (numNodes : Nat) (e : Traversal)
    (s : List Traversal) :
    stackMeasure numNodes (e :: s) =
      entryWeight numNodes e + stackMeasure numNodes s := by
  simp [stackMeasure]

theorem stackMeasure_append (numNodes : Nat) (s1 s2 : List Traversal) :
    stackMeasure numNodes (s1 ++ s2) =
      stackMeasure numNodes s1 + stackMeasure numNodes s2 := by
  simp [stackMeasure]

theorem stackMeasure_rest_lt (numNodes : Nat) (e : Traversal)
    (s : List Traversal) :
    stackMeasure numNodes s < stackMeasure numNodes (e :: s) := by
  rw [stackMeasure_cons]
  have := entryWeight_pos numNodes e
  omega

theorem default_node_rightOffset : (default : Node).rightOffset = 0 := rfl

theorem lt_size_of_rightOffset_ne (ns : Array Node) (j : Nat)
    (h : (nodeAt ns j).rightOffset ≠ 0) : j < ns.size := by
  by_contra hge
  have hd : nodeAt ns j = default := by
    unfold nodeAt
    split
    · omega
    · rfl
  rw [hd] at h
  exact h rfl

theorem stackMeasure_childEntries_lt {R : Type} (ns : Array Node)
    (boxI : Nat → R → Option (ℚ × ℚ)) (ray : R) (ni : Nat)
    (hro : (nodeAt ns ni).rightOffset ≠ 0) :
    stackMeasure ns.size (childEntries ns boxI ray ni) < 3 ^ (ns.size - ni) := by
  have hni : ni < ns.size := lt_size_of_rightOffset_ne ns ni hro
  have hone : 1 ≤ (nodeAt ns ni).rightOffset := Nat.one_le_iff_ne_zero.mpr hro
  obtain ⟨k, hk⟩ : ∃ k, ns.size - ni = k + 1 := ⟨ns.size - ni - 1, by omega⟩
  have hx : 1 ≤ 3 ^ k := Nat.one_le_pow _ _ (by norm_num)
  have hpow : 3 ^ (ns.size - ni) = 3 * 3 ^ k := by
    rw [hk, pow_succ]
    ring
  have hL : 3 ^ (ns.size - (ni + 1)) ≤ 3 ^ k := by
    have h2 : ns.size - (ni + 1) = k := by omega
    rw [h2]
  have hR : 3 ^ (ns.size - (ni + (nodeAt ns ni).rightOffset)) ≤
      3 ^ k := by
    apply Nat.pow_le_pow_right (by norm_num)
    omega
  simp only [childEntries]
  split
  · split <;>
      (simp only [stackMeasure, List.map_cons, List.map_nil, List.sum_cons,
        List.sum_nil, entryWeight]
       omega)
  · simp only [stackMeasure, List.map_cons, List.map_nil, List.sum_cons,
      List.sum_nil, entryWeight]
    omega
  · simp only [stackMeasure, List.map_cons, List.map_nil, List.sum_cons,
      List.sum_nil, entryWeight]
    omega
  · simp only [stackMeasure, List.map_nil, List.sum_nil]
    omega

theorem traverseAux_succ_cons {P R : Type} [Inhabited P] (env : Env P R)
    (ray : R) (occl : Bool) (fuel : Nat) (e : Traversal)
    (rest : List Traversal) (best : Intersection P) :
    traverseAux env ray occl (fuel+1) (e :: rest) best =
      (let node := nodeAt env.nodes e.i
       let inner :=
         if (e.mint : WithTop ℚ) > best.t then
           traverseAux env ray occl fuel rest best
         else if node.rightOffset = 0 then
           match leafScan env.intersector env.prims ray occl
               node.start node.nPrims best with
           | .error hit => (hit, 0)
           | .ok best2 => traverseAux env ray occl fuel rest best2
         else
           traverseAux env ray occl fuel
             (childEntries env.nodes env.boxIntersect ray e.i ++ rest) best
       (inner.1, max (e :: rest).length inner.2)) := rfl

theorem traverseNPAux_succ_cons {P R : Type} [Inhabited P] (env : Env P R)
    (ray : R) (occl : Bool) (fuel : Nat) (e : Traversal)
    (rest : List Traversal) (best : Intersection P) :
    traverseNPAux env ray occl (fuel+1) (e :: rest) best =
      (let node := nodeAt env.nodes e.i
       let inner :=
         if node.rightOffset = 0 then
           match leafScan env.intersector env.prims ray occl
               node.start node.nPrims best with
           | .error hit => (hit, 0)
           | .ok best2 => traverseNPAux env ray occl fuel rest best2
         else
           traverseNPAux env ray occl fuel
             (childEntries env.nodes env.boxIntersect ray e.i ++ rest) best
       (inner.1, max (e :: rest).length inner.2)) := rfl

theorem stackMeasure_step_rest {P R : Type} [Inhabited P] (env : Env P R)
    (e : Traversal) (rest : List Traversal) :
    stackMeasure env.nodes.size rest < stackMeasure env.nodes.size (e :: rest) :=
  stackMeasure_rest_lt _ _ _

theorem stackMeasure_step_push {P R : Type} [Inhabited P] (env : Env P R)
    (ray : R) (e : Traversal) (rest : List Traversal)
    (hro : (nodeAt env.nodes e.i).rightOffset ≠ 0) :
    stackMeasure env.nodes.size
        (childEntries env.nodes env.boxIntersect ray e.i ++ rest) <
      stackMeasure env.nodes.size (e :: rest) := by
  rw [stackMeasure_append, stackMeasure_cons]
  have h1 := stackMeasure_childEntries_lt env.nodes env.boxIntersect ray e.i hro
  have h2 : entryWeight env.nodes.size e = 3 ^ (env.nodes.size - e.i) := rfl
  omega

theorem traverseAux_fuel_irrel {P R : Type} [Inhabited P] (env : Env P R)
    (ray : R) (occl : Bool) :
    ∀ fuel s best, stackMeasure env.nodes.size s ≤ fuel →
      traverseAux env ray occl fuel s best = runAux env ray occl s best := by
  intro fuel
  induction fuel using Nat.strong_induction_on with
  | _ fuel ih =>
    intro s best hle
    match s with
    | [] =>
      cases fuel <;> rfl
    | e :: rest =>
      have hm1 : 1 ≤ stackMeasure env.nodes.size (e :: rest) := by
        have := stackMeasure_rest_lt env.nodes.size e rest
        omega
      obtain ⟨f', rfl⟩ : ∃ f', fuel = f' + 1 := ⟨fuel - 1, by omega⟩
      obtain ⟨m', hm⟩ : ∃ m',
          stackMeasure env.nodes.size (e :: rest) = m' + 1 :=
        ⟨stackMeasure env.nodes.size (e :: rest) - 1, by omega⟩
      have hrest := stackMeasure_step_rest env e rest
      unfold runAux
      rw [hm, traverseAux_succ_cons, traverseAux_succ_cons]
      by_cases hpr : (e.mint : WithTop ℚ) > best.t
      · simp only [hpr, if_true]
        rw [ih f' (by omega) rest best (by omega),
          ih m' (by omega) rest best (by omega)]
      · by_cases hro : (nodeAt env.nodes e.i).rightOffset = 0
        · simp only [hpr, if_false, hro, if_true]
          rcases hls : leafScan env.intersector env.prims ray occl
              (nodeAt env.nodes e.i).start
              (nodeAt env.nodes e.i).nPrims best with hit | best2
          · simp [hls]
          · simp only [hls]
            rw [ih f' (by omega) rest best2 (by omega),
              ih m' (by omega) rest best2 (by omega)]
        · simp only [hpr, if_false, hro]
          have hpush := stackMeasure_step_push env ray e rest hro
          rw [ih f' (by omega) _ best (by omega),
            ih m' (by omega) _ best (by omega)]

theorem traverseNPAux_fuel_irrel {P R : Type} [Inhabited P] (env : Env P R)
    (ray : R) (occl : Bool) :
    ∀ fuel s best, stackMeasure env.nodes.size s ≤ fuel →
      traverseNPAux env ray occl fuel s best = runNPAux env ray occl s best := by
  intro fuel
  induction fuel using Nat.strong_induction_on with
  | _ fuel ih =>
    intro s best hle
    match s with
    | [] =>
      cases fuel <;> rfl
    | e :: rest =>
      have hm1 : 1 ≤ stackMeasure env.nodes.size (e :: rest) := by
        have := stackMeasure_rest_lt env.nodes.size e rest
        omega
      obtain ⟨f', rfl⟩ : ∃ f', fuel = f' + 1 := ⟨fuel - 1, by omega⟩
      obtain ⟨m', hm⟩ : ∃ m',
          stackMeasure env.nodes.size (e :: rest) = m' + 1 :=
        ⟨stackMeasure env.nodes.size (e :: rest) - 1, by omega⟩
      have hrest := stackMeasure_step_rest env e rest
      unfold runNPAux
      rw [hm, traverseNPAux_succ_cons, traverseNPAux_succ_cons]
      by_cases hro : (nodeAt env.nodes e.i).rightOffset = 0
      · simp only [hro, if_true]
        rcases hls : leafScan env.intersector env.prims ray occl
            (nodeAt env.nodes e.i).start
            (nodeAt env.nodes e.i).nPrims best with hit | best2
        · simp [hls]
        · simp only [hls]
          rw [ih f' (by omega) rest best2 (by omega),
            ih m' (by omega) rest best2 (by omega)]
      · simp only [hro, if_false]
        have hpush := stackMeasure_step_push env ray e rest hro
        rw [ih f' (by omega) _ best (by omega),
          ih m' (by omega) _ best (by omega)]

theorem runAux_nil {P R : Type} [Inhabited P] (env : Env P R) (ray : R)
    (occl : Bool) (best : Intersection P) :
    runAux env ray occl [] best = (best, 0) := rfl

theorem runNPAux_nil {P R : Type} [Inhabited P] (env : Env P R) (ray : R)
    (occl : Bool) (best : Intersection P) :
    runNPAux env ray occl [] best = (best, 0) := rfl

theorem stackMeasure_cons_succ {P R : Type} [Inhabited P] (env : Env P R)
    (e : Traversal) (rest : List Traversal) :
    ∃ m, stackMeasure env.nodes.size (e :: rest) = m + 1 ∧
      stackMeasure env.nodes.size rest ≤ m := by
  have := stackMeasure_rest_lt env.nodes.size e rest
  exact ⟨stackMeasure env.nodes.size (e :: rest) - 1, by omega, by omega⟩

theorem runAux_cons_prune {P R : Type} [Inhabited P] (env : Env P R)
    (ray : R) (occl : Bool) (e : Traversal) (rest : List Traversal)
    (best : Intersection P) (h : (e.mint : WithTop ℚ) > best.t) :
    runAux env ray occl (e :: rest) best =
      ((runAux env ray occl rest best).1,
        max (rest.length + 1) (runAux env ray occl rest best).2) := by
  obtain ⟨m, hm, hrest⟩ := stackMeasure_cons_succ env e rest
  unfold runAux
  rw [hm, traverseAux_succ_cons]
  simp only [h, if_true, List.length_cons]
  rw [traverseAux_fuel_irrel env ray occl m rest best hrest]
  rfl

theorem runAux_cons_leaf_ok {P R : Type} [Inhabited P] (env : Env P R)
    (ray : R) (occl : Bool) (e : Traversal) (rest : List Traversal)
    (best best2 : Intersection P)
    (h : ¬ (e.mint : WithTop ℚ) > best.t)
    (hro : (nodeAt env.nodes e.i).rightOffset = 0)
    (hls : leafScan env.intersector env.prims ray occl
      (nodeAt env.nodes e.i).start (nodeAt env.nodes e.i).nPrims best =
        .ok best2) :
    runAux env ray occl (e :: rest) best =
      ((runAux env ray occl rest best2).1,
        max (rest.length + 1) (runAux env ray occl rest best2).2) := by
  obtain ⟨m, hm, hrest⟩ := stackMeasure_cons_succ env e rest
  unfold runAux
  rw [hm, traverseAux_succ_cons]
  simp only [h, if_false, hro, if_true, hls, List.length_cons]
  rw [traverseAux_fuel_irrel env ray occl m rest best2 hrest]
  rfl

theorem runAux_cons_leaf_error {P R : Type} [Inhabited P] (env : Env P R)
    (ray : R) (occl : Bool) (e : Traversal) (rest : List Traversal)
    (best hit : Intersection P)
    (h : ¬ (e.mint : WithTop ℚ) > best.t)
    (hro : (nodeAt env.nodes e.i).rightOffset = 0)
    (hls : leafScan env.intersector env.prims ray occl
      (nodeAt env.nodes e.i).start (nodeAt env.nodes e.i).nPrims best =
        .error hit) :
    runAux env ray occl (e :: rest) best = (hit, rest.length + 1) := by
  obtain ⟨m, hm, hrest⟩ := stackMeasure_cons_succ env e rest
  unfold runAux
  rw [hm, traverseAux_succ_cons]
  simp only [h, if_false, hro, if_true, hls, List.length_cons]
  rfl

theorem runAux_cons_push {P R : Type} [Inhabited P] (env : Env P R)
    (ray : R) (occl : Bool) (e : Traversal) (rest : List Traversal)
    (best : Intersection P)
    (h : ¬ (e.mint : WithTop ℚ) > best.t)
    (hro : (nodeAt env.nodes e.i).rightOffset ≠ 0) :
    runAux env ray occl (e :: rest) best =
      ((runAux env ray occl
          (childEntries env.nodes env.boxIntersect ray e.i ++ rest) best).1,
        max (rest.length + 1)
          (runAux env ray occl
            (childEntries env.nodes env.boxIntersect ray e.i ++ rest)
            best).2) := by
  obtain ⟨m, hm, hrest⟩ := stackMeasure_cons_succ env e rest
  have hpush : stackMeasure env.nodes.size
      (childEntries env.nodes env.boxIntersect ray e.i ++ rest) ≤ m := by
    have := stackMeasure_step_push env ray e rest hro
    omega
  unfold runAux
  rw [hm, traverseAux_succ_cons]
  simp only [h, if_false, hro, List.length_cons]
  rw [traverseAux_fuel_irrel env ray occl m _ best hpush]
  rfl

theorem runNPAux_cons_leaf_ok {P R : Type} [Inhabited P] (env : Env P R)
    (ray : R) (occl : Bool) (e : Traversal) (rest : List Traversal)
    (best best2 : Intersection P)
    (hro : (nodeAt env.nodes e.i).rightOffset = 0)
    (hls : leafScan env.intersector env.prims ray occl
      (nodeAt env.nodes e.i).start (nodeAt env.nodes e.i).nPrims best =
        .ok best2) :
    runNPAux env ray occl (e :: rest) best =
      ((runNPAux env ray occl rest best2).1,
        max (rest.length + 1) (runNPAux env ray occl rest best2).2) := by
  obtain ⟨m, hm, hrest⟩ := stackMeasure_cons_succ env e rest
  unfold runNPAux
  rw [hm, traverseNPAux_succ_cons]
  simp only [hro, if_true, hls, List.length_cons]
  rw [traverseNPAux_fuel_irrel env ray occl m rest best2 hrest]
  rfl

theorem runNPAux_cons_leaf_error {P R : Type} [Inhabited P] (env : Env P R)
    (ray : R) (occl : Bool) (e : Traversal) (rest : List Traversal)
    (best hit : Intersection P)
    (hro : (nodeAt env.nodes e.i).rightOffset = 0)
    (hls : leafScan env.intersector env.prims ray occl
      (nodeAt env.nodes e.i).start (nodeAt env.nodes e.i).nPrims best =
        .error hit) :
    runNPAux env ray occl (e :: rest) best = (hit, rest.length + 1) := by
  obtain ⟨m, hm, hrest⟩ := stackMeasure_cons_succ env e rest
  unfold runNPAux
  rw [hm, traverseNPAux_succ_cons]
  simp only [hro, if_true, hls, List.length_cons]
  rfl

theorem runNPAux_cons_push {P R : Type} [Inhabited P] (env : Env P R)
    (ray : R) (occl : Bool) (e : Traversal) (rest : List Traversal)
    (best : Intersection P)
    (hro : (nodeAt env.nodes e.i).rightOffset ≠ 0) :
    runNPAux env ray occl (e :: rest) best =
      ((runNPAux env ray occl
          (childEntries env.nodes env.boxIntersect ray e.i ++ rest) best).1,
        max (rest.length + 1)
          (runNPAux env ray occl
            (childEntries env.nodes env.boxIntersect ray e.i ++ rest)
            best).2) := by
  obtain ⟨m, hm, hrest⟩ := stackMeasure_cons_succ env e rest
  have hpush : stackMeasure env.nodes.size
      (childEntries env.nodes env.boxIntersect ray e.i ++ rest) ≤ m := by
    have := stackMeasure_step_push env ray e rest hro
    omega
  unfold runNPAux
  rw [hm, traverseNPAux_succ_cons]
  simp only [hro, List.length_cons]
  rw [traverseNPAux_fuel_irrel env ray occl m _ best hpush]
  rfl

theorem stackMeasure_initStack {P R : Type} [Inhabited P] (env : Env P R) :
    stackMeasure env.nodes.size initStack = 3 ^ env.nodes.size := by
  simp [stackMeasure, initStack, entryWeight]

theorem traverse_eq_runAux {P R : Type} [Inhabited P] (env : Env P R)
    (ray : R) (occl : Bool) :
    traverse env ray occl = (runAux env ray occl initStack default).1 := by
  unfold traverse runAux
  rw [stackMeasure_initStack]

theorem traverseMaxStack_eq_runAux {P R : Type} [Inhabited P]
    (env : Env P R) (ray : R) (occl : Bool) :
    traverseMaxStack env ray occl = (runAux env ray occl initStack default).2 := by
  unfold traverseMaxStack runAux
  rw [stackMeasure_initStack]

theorem traverseNP_eq_runNPAux {P R : Type} [Inhabited P] (env : Env P R)
    (ray : R) (occl : Bool) :
    traverseNP env ray occl = (runNPAux env ray occl initStack default).1 := by
  unfold traverseNP runNPAux
  rw [stackMeasure_initStack]

theorem DepthLE_lt_size {ns : Array Node} {j d : Nat} (h : DepthLE ns j d) :
    j < ns.size := by
  cases h with
  | leaf hj _ => exact hj
  | node hj _ _ _ => exact hj

theorem DepthLE_pos {ns : Array Node} {j d : Nat} (h : DepthLE ns j d) :
    1 ≤ d := by
  cases h with
  | leaf _ _ => omega
  | node _ _ _ _ => omega

theorem DepthLE_children {ns : Array Node} {j d : Nat} (h : DepthLE ns j d)
    (hro : (nodeAt ns j).rightOffset ≠ 0) :
    ∃ d', d = d' + 1 ∧ DepthLE ns (j + 1) d' ∧
      DepthLE ns (j + (nodeAt ns j).rightOffset) d' := by
  cases h with
  | leaf _ h0 => exact absurd h0 hro
  | node _ _ hl hr => exact ⟨_, rfl, hl, hr⟩

theorem PrimUnder_leaf_iff {ns : Array Node} {j q : Nat}
    (hro : (nodeAt ns j).rightOffset = 0) :
    PrimUnder ns j q ↔ j < ns.size ∧ (nodeAt ns j).start ≤ q ∧
      q < (nodeAt ns j).start + (nodeAt ns j).nPrims := by
  constructor
  · intro h
    cases h with
    | leaf hj _ h1 h2 => exact ⟨hj, h1, h2⟩
    | left _ h0 _ => exact absurd hro h0
    | right _ h0 _ => exact absurd hro h0
  · rintro ⟨hj, h1, h2⟩
    exact PrimUnder.leaf hj hro h1 h2

theorem PrimUnder_internal_elim {ns : Array Node} {j q : Nat}
    (hro : (nodeAt ns j).rightOffset ≠ 0) (h : PrimUnder ns j q) :
    PrimUnder ns (j + 1) q ∨
      PrimUnder ns (j + (nodeAt ns j).rightOffset) q := by
  cases h with
  | leaf _ h0 _ _ => exact absurd h0 hro
  | left _ _ hl => exact Or.inl hl
  | right _ _ hr => exact Or.inr hr

theorem childEntries_mem_iff {R : Type} (ns : Array Node)
    (boxI : Nat → R → Option (ℚ × ℚ)) (ray : R) (ni : Nat) (e' : Traversal) :
    e' ∈ childEntries ns boxI ray ni ↔
      ((∃ t0 f0, boxI (ni + 1) ray = some (t0, f0) ∧
          e' = Traversal.mk (ni + 1) t0) ∨
        (∃ t1 f1,
          boxI (ni + (nodeAt ns ni).rightOffset) ray = some (t1, f1) ∧
          e' = Traversal.mk (ni + (nodeAt ns ni).rightOffset) t1)) := by
  simp only [childEntries]
  rcases h0 : boxI (ni + 1) ray with _ | ⟨t0, f0⟩ <;>
    rcases h1 : boxI (ni + (nodeAt ns ni).rightOffset) ray with _ | ⟨t1, f1⟩
  · simp
  · simp
  · simp
  · by_cases hsw : t1 < t0 <;> (simp [hsw]; try tauto)

theorem no_valid_under_missed {P R : Type} [Inhabited P] (env : Env P R)
    (ray : R) (j : Nat) (henc : EnclosureOK env ray)
    (hbox : env.boxIntersect j ray = none) :
    ∀ q, PrimUnder env.nodes j q → ¬ (hitOf env ray q).valid = true := by
  intro q hq hv
  obtain ⟨tn, tf, hb, _⟩ := henc j q hq hv
  rw [hbox] at hb
  cases hb

theorem good_of_box_hit {P R : Type} [Inhabited P] (env : Env P R) (ray : R)
    (j : Nat) (tn tf : ℚ) (henc : EnclosureOK env ray)
    (hd : ∃ d, DepthLE env.nodes j d)
    (hbox : env.boxIntersect j ray = some (tn, tf)) :
    GoodEntry env ray (Traversal.mk j tn) := by
  refine ⟨hd, ?_⟩
  intro q hq hv
  obtain ⟨tn', tf', hb, hle⟩ := henc j q hq hv
  rw [hbox] at hb
  injection hb with hb'
  injection hb' with h1 h2
  rw [h1]
  exact hle

theorem childEntries_good {P R : Type} [Inhabited P] (env : Env P R)
    (ray : R) (ni : Nat) (henc : EnclosureOK env ray)
    (hd : ∃ d, DepthLE env.nodes ni d)
    (hro : (nodeAt env.nodes ni).rightOffset ≠ 0) :
    ∀ e' ∈ childEntries env.nodes env.boxIntersect ray ni,
      GoodEntry env ray e' := by
  intro e' he'
  obtain ⟨d, hdd⟩ := hd
  obtain ⟨d', _, hdl, hdr⟩ := DepthLE_children hdd hro
  rcases (childEntries_mem_iff _ _ _ _ _).mp he' with
    ⟨t0, f0, hb0, rfl⟩ | ⟨t1, f1, hb1, rfl⟩
  · exact good_of_box_hit env ray _ t0 f0 henc ⟨d', hdl⟩ hb0
  · exact good_of_box_hit env ray _ t1 f1 henc ⟨d', hdr⟩ hb1

theorem StackPrim_nil (ns : Array Node) (q : Nat) : ¬ StackPrim ns [] q := by
  unfold StackPrim
  simp

theorem StackPrim_cons {ns : Array Node} {e : Traversal}
    {rest : List Traversal} {q : Nat} :
    StackPrim ns (e :: rest) q ↔ PrimUnder ns e.i q ∨ StackPrim ns rest q := by
  unfold StackPrim
  constructor
  · rintro ⟨e', he', hp⟩
    rcases List.mem_cons.mp he' with rfl | h
    · exact Or.inl hp
    · exact Or.inr ⟨e', h, hp⟩
  · rintro (hp | ⟨e', he', hp⟩)
    · exact ⟨e, List.mem_cons_self e rest, hp⟩
    · exact ⟨e', List.mem_cons_of_mem e he', hp⟩

theorem StackPrim_append {ns : Array Node} {s1 s2 : List Traversal} {q : Nat} :
    StackPrim ns (s1 ++ s2) q ↔ StackPrim ns s1 q ∨ StackPrim ns s2 q := by
  unfold StackPrim
  constructor
  · rintro ⟨e', he', hp⟩
    rcases List.mem_append.mp he' with h | h
    · exact Or.inl ⟨e', h, hp⟩
    · exact Or.inr ⟨e', h, hp⟩
  · rintro (⟨e', he', hp⟩ | ⟨e', he', hp⟩)
    · exact ⟨e', List.mem_append_left _ he', hp⟩
    · exact ⟨e', List.mem_append_right _ he', hp⟩

theorem tidy_valid_of_t_lt_top {P : Type} (b : Intersection P) (hb : Tidy b)
    (h : b.t < ⊤) : b.valid = true := by
  by_contra hv
  rw [tidy_top_of_not_valid b hb hv] at h
  exact lt_irrefl _ h

/-- Master invariant of the nearest-mode loop: starting from a stack of
good entries (or from the initial root-only stack with the default best),
the loop result is a lower bound of every remaining candidate hit, comes
either from the incoming best or from some primitive under the stack, and is
valid exactly when the incoming best is valid or some candidate hit is. -/
theorem runAux_nearest_spec {P R : Type} [Inhabited P] (env : Env P R)
    (ray : R) (henc : EnclosureOK env ray) :
    ∀ n s best, stackMeasure env.nodes.size s ≤ n →
      ((∀ e' ∈ s, GoodEntry env ray e') ∨
        (∃ e0, s = [e0] ∧ (∃ d, DepthLE env.nodes e0.i d) ∧
          best = default)) →
      Tidy best →
      Tidy (runAux env ray false s best).1 ∧
      (runAux env ray false s best).1.t ≤ best.t ∧
      (∀ q, StackPrim env.nodes s q → (hitOf env ray q).valid = true →
        (runAux env ray false s best).1.t ≤ (hitOf env ray q).t) ∧
      ((runAux env ray false s best).1 = best ∨
        ∃ q, StackPrim env.nodes s q ∧ (hitOf env ray q).valid = true ∧
          (runAux env ray false s best).1 = hitOf env ray q) ∧
      (best.valid = true → (runAux env ray false s best).1.valid = true) ∧
      ((∃ q, StackPrim env.nodes s q ∧ (hitOf env ray q).valid = true) →
        (runAux env ray false s best).1.valid = true) := by
  intro n
  induction n with
  | zero =>
    intro s best hm hinv htidy
    match s with
    | [] =>
      rw [runAux_nil]
      refine ⟨htidy, le_refl _, ?_, Or.inl rfl, fun h => h, ?_⟩
      · intro q hq
        exact absurd hq (StackPrim_nil _ _)
      · rintro ⟨q, hq, _⟩
        exact absurd hq (StackPrim_nil _ _)
    | e :: rest =>
      exfalso
      have := stackMeasure_rest_lt env.nodes.size e rest
      omega
  | succ n ih =>
    intro s best hm hinv htidy
    match s with
    | [] =>
      rw [runAux_nil]
      refine ⟨htidy, le_refl _, ?_, Or.inl rfl, fun h => h, ?_⟩
      · intro q hq
        exact absurd hq (StackPrim_nil _ _)
      · rintro ⟨q, hq, _⟩
        exact absurd hq (StackPrim_nil _ _)
    | e :: rest =>
      have hmeas := stackMeasure_rest_lt env.nodes.size e rest
      have hde : ∃ d, DepthLE env.nodes e.i d := by
        rcases hinv with hg | ⟨e0, hs, hd0, _⟩
        · exact (hg e (List.mem_cons_self e rest)).1
        · have he0 : e = e0 := by
            have := List.cons.injEq e rest e0 ([] : List Traversal) ▸ hs
            simp at hs
            exact hs.1
          rw [he0]
          exact hd0
      have hrest_good : ∀ e' ∈ rest, GoodEntry env ray e' := by
        rcases hinv with hg | ⟨e0, hs, _, _⟩
        · intro e' he'
          exact hg e' (List.mem_cons_of_mem e he')
        · have : rest = [] := by
            simp at hs
            exact hs.2
          rw [this]
          intro e' he'
          exact absurd he' (List.not_mem_nil e')
      by_cases hpr : (e.mint : WithTop ℚ) > best.t
      · -- prune branch: the popped entry must be a good one
        have hgood_e : GoodEntry env ray e := by
          rcases hinv with hg | ⟨e0, hs, hd0, hbd⟩
          · exact hg e (List.mem_cons_self e rest)
          · exfalso
            rw [hbd] at hpr
            exact not_top_lt hpr
        rw [runAux_cons_prune env ray false e rest best hpr]
        obtain ⟨ihT, ihLe, ihAll, ihMem, ihMono, ihEx⟩ :=
          ih rest best (by omega) (Or.inl hrest_good) htidy
        refine ⟨ihT, ihLe, ?_, ?_, ihMono, ?_⟩
        · intro q hq hv
          rcases StackPrim_cons.mp hq with hqe | hqr
          · have hbound := hgood_e.2 q hqe hv
            exact le_trans ihLe (le_trans (le_of_lt hpr) hbound)
          · exact ihAll q hqr hv
        · rcases ihMem with h | ⟨q, hq, hv, he⟩
          · exact Or.inl h
          · exact Or.inr ⟨q, StackPrim_cons.mpr (Or.inr hq), hv, he⟩
        · rintro ⟨q, hq, hv⟩
          rcases StackPrim_cons.mp hq with hqe | hqr
          · apply ihMono
            apply tidy_valid_of_t_lt_top best htidy
            exact lt_trans hpr (WithTop.coe_lt_top _)
          · exact ihEx ⟨q, hqr, hv⟩
      · by_cases hro : (nodeAt env.nodes e.i).rightOffset = 0
        · -- leaf branch
          obtain ⟨best2, hls, hT2, hle2, hall2, hmem2, hmono2, hex2⟩ :=
            leafScan_false_spec env.intersector env.prims ray
              (nodeAt env.nodes e.i).nPrims (nodeAt env.nodes e.i).start
              best htidy
          rw [runAux_cons_leaf_ok env ray false e rest best best2 hpr hro hls]
          obtain ⟨ihT, ihLe, ihAll, ihMem, ihMono, ihEx⟩ :=
            ih rest best2 (by omega) (Or.inl hrest_good) hT2
          have hsize : e.i < env.nodes.size := by
            obtain ⟨d, hd⟩ := hde
            exact DepthLE_lt_size hd
          refine ⟨ihT, le_trans ihLe hle2, ?_, ?_,
            fun hbv => ihMono (hmono2 hbv), ?_⟩
          · intro q hq hv
            rcases StackPrim_cons.mp hq with hqe | hqr
            · obtain ⟨_, hq1, hq2⟩ := (PrimUnder_leaf_iff hro).mp hqe
              obtain ⟨o, rfl⟩ :
                  ∃ o, q = (nodeAt env.nodes e.i).start + o :=
                ⟨q - (nodeAt env.nodes e.i).start, by omega⟩
              have hb2 := hall2 o (by omega)
                (by rw [hitOf_eq_hitAt] at hv; exact hv)
              rw [hitOf_eq_hitAt]
              exact le_trans ihLe hb2
            · exact ihAll q hqr hv
          · rcases ihMem with h | ⟨q, hq, hv, he⟩
            · rcases hmem2 with h2 | ⟨o, ho, hov, hoe⟩
              · exact Or.inl (h.trans h2)
              · refine Or.inr ⟨(nodeAt env.nodes e.i).start + o, ?_, ?_, ?_⟩
                · apply StackPrim_cons.mpr
                  left
                  exact (PrimUnder_leaf_iff hro).mpr ⟨hsize, by omega, by omega⟩
                · rw [hitOf_eq_hitAt]
                  exact hov
                · rw [hitOf_eq_hitAt, h, hoe]
            · exact Or.inr ⟨q, StackPrim_cons.mpr (Or.inr hq), hv, he⟩
          · rintro ⟨q, hq, hv⟩
            rcases StackPrim_cons.mp hq with hqe | hqr
            · obtain ⟨_, hq1, hq2⟩ := (PrimUnder_leaf_iff hro).mp hqe
              obtain ⟨o, rfl⟩ :
                  ∃ o, q = (nodeAt env.nodes e.i).start + o :=
                ⟨q - (nodeAt env.nodes e.i).start, by omega⟩
              apply ihMono
              apply hex2
              exact ⟨o, by omega, by rw [hitOf_eq_hitAt] at hv; exact hv⟩
            · exact ihEx ⟨q, hqr, hv⟩
        · -- internal branch
          rw [runAux_cons_push env ray false e rest best hpr hro]
          have hce_good := childEntries_good env ray e.i henc hde hro
          have hnew_good : ∀ e' ∈
              childEntries env.nodes env.boxIntersect ray e.i ++ rest,
              GoodEntry env ray e' := by
            intro e' he'
            rcases List.mem_append.mp he' with h | h
            · exact hce_good e' h
            · exact hrest_good e' h
          have hm' : stackMeasure env.nodes.size
              (childEntries env.nodes env.boxIntersect ray e.i ++ rest) ≤ n := by
            have := stackMeasure_step_push env ray e rest hro
            omega
          obtain ⟨ihT, ihLe, ihAll, ihMem, ihMono, ihEx⟩ :=
            ih _ best hm' (Or.inl hnew_good) htidy
          have hsize : e.i < env.nodes.size := by
            obtain ⟨d, hd⟩ := hde
            exact DepthLE_lt_size hd
          have hlift : ∀ q, PrimUnder env.nodes e.i q →
              (hitOf env ray q).valid = true →
              StackPrim env.nodes
                (childEntries env.nodes env.boxIntersect ray e.i) q := by
            intro q hqe hv
            rcases PrimUnder_internal_elim hro hqe with hql | hqr2
            · rcases hb : env.boxIntersect (e.i + 1) ray with _ | ⟨t0, f0⟩
              · exact absurd hv (no_valid_under_missed env ray _ henc hb q hql)
              · exact ⟨⟨e.i + 1, t0⟩,
                  (childEntries_mem_iff _ _ _ _ _).mpr
                    (Or.inl ⟨t0, f0, hb, rfl⟩), hql⟩
            · rcases hb : env.boxIntersect
                  (e.i + (nodeAt env.nodes e.i).rightOffset) ray with
                _ | ⟨t1, f1⟩
              · exact absurd hv
                  (no_valid_under_missed env ray _ henc hb q hqr2)
              · exact ⟨⟨e.i + (nodeAt env.nodes e.i).rightOffset, t1⟩,
                  (childEntries_mem_iff _ _ _ _ _).mpr
                    (Or.inr ⟨t1, f1, hb, rfl⟩), hqr2⟩
          refine ⟨ihT, ihLe, ?_, ?_, ihMono, ?_⟩
          · intro q hq hv
            rcases StackPrim_cons.mp hq with hqe | hqr
            · exact ihAll q (StackPrim_append.mpr (Or.inl (hlift q hqe hv))) hv
            · exact ihAll q (StackPrim_append.mpr (Or.inr hqr)) hv
          · rcases ihMem with h | ⟨q, hq, hv, he⟩
            · exact Or.inl h
            · rcases StackPrim_append.mp hq with hqc | hqr
              · obtain ⟨e', he', hpu⟩ := hqc
                rcases (childEntries_mem_iff _ _ _ _ _).mp he' with
                  ⟨t0, f0, hb, rfl⟩ | ⟨t1, f1, hb, rfl⟩
                · exact Or.inr ⟨q, StackPrim_cons.mpr
                    (Or.inl (PrimUnder.left hsize hro hpu)), hv, he⟩
                · exact Or.inr ⟨q, StackPrim_cons.mpr
                    (Or.inl (PrimUnder.right hsize hro hpu)), hv, he⟩
              · exact Or.inr ⟨q, StackPrim_cons.mpr (Or.inr hqr), hv, he⟩
          · rintro ⟨q, hq, hv⟩
            rcases StackPrim_cons.mp hq with hqe | hqr
            · exact ihEx ⟨q, StackPrim_append.mpr (Or.inl (hlift q hqe hv)), hv⟩
            · exact ihEx ⟨q, StackPrim_append.mpr (Or.inr hqr), hv⟩

theorem default_not_valid {P : Type} :
    (default : Intersection P).valid = false := rfl

theorem default_t {P : Type} : (default : Intersection P).t = ⊤ := rfl

theorem childEntries_depth {R : Type} (ns : Array Node)
    (boxI : Nat → R → Option (ℚ × ℚ)) (ray : R) (ni : Nat)
    (hd : ∃ d, DepthLE ns ni d) (hro : (nodeAt ns ni).rightOffset ≠ 0) :
    ∀ e' ∈ childEntries ns boxI ray ni, ∃ d, DepthLE ns e'.i d := by
  intro e' he'
  obtain ⟨d, hdd⟩ := hd
  obtain ⟨d', _, hdl, hdr⟩ := DepthLE_children hdd hro
  rcases (childEntries_mem_iff _ _ _ _ _).mp he' with
    ⟨t0, f0, _, rfl⟩ | ⟨t1, f1, _, rfl⟩
  · exact ⟨d', hdl⟩
  · exact ⟨d', hdr⟩

theorem StackPrim_childEntries {P R : Type} [Inhabited P] (env : Env P R)
    (ray : R) (ni : Nat) (henc : EnclosureOK env ray)
    (hro : (nodeAt env.nodes ni).rightOffset ≠ 0) :
    ∀ q, PrimUnder env.nodes ni q → (hitOf env ray q).valid = true →
      StackPrim env.nodes
        (childEntries env.nodes env.boxIntersect ray ni) q := by
  intro q hqe hv
  rcases PrimUnder_internal_elim hro hqe with hql | hqr2
  · rcases hb : env.boxIntersect (ni + 1) ray with _ | ⟨t0, f0⟩
    · exact absurd hv (no_valid_under_missed env ray _ henc hb q hql)
    · exact ⟨⟨ni + 1, t0⟩,
        (childEntries_mem_iff _ _ _ _ _).mpr (Or.inl ⟨t0, f0, hb, rfl⟩), hql⟩
  · rcases hb : env.boxIntersect
        (ni + (nodeAt env.nodes ni).rightOffset) ray with _ | ⟨t1, f1⟩
    · exact absurd hv (no_valid_under_missed env ray _ henc hb q hqr2)
    · exact ⟨⟨ni + (nodeAt env.nodes ni).rightOffset, t1⟩,
        (childEntries_mem_iff _ _ _ _ _).mpr (Or.inr ⟨t1, f1, hb, rfl⟩), hqr2⟩

/-- Master invariant of the occlusion-mode loop: since no hit is ever merged
into the running best in occlusion mode, the loop runs with the default
(invalid, `t = ⊤`) best throughout, the prune check never fires, and the
result is valid iff some primitive under the stack has a valid hit, in which
case the result is exactly one of the intersector's reported hits. -/
theorem runAux_occl_spec {P R : Type} [Inhabited P] (env : Env P R)
    (ray : R) (henc : EnclosureOK env ray) :
    ∀ n s, stackMeasure env.nodes.size s ≤ n →
      (∀ e' ∈ s, ∃ d, DepthLE env.nodes e'.i d) →
      ((runAux env ray true s default).1.valid = true ↔
        ∃ q, StackPrim env.nodes s q ∧ (hitOf env ray q).valid = true) ∧
      ((runAux env ray true s default).1.valid = true →
        ∃ q, StackPrim env.nodes s q ∧ (hitOf env ray q).valid = true ∧
          (runAux env ray true s default).1 = hitOf env ray q) := by
  intro n
  induction n with
  | zero =>
    intro s hm hdep
    match s with
    | [] =>
      rw [runAux_nil]
      constructor
      · rw [default_not_valid]
        simp only [Bool.false_eq_true, false_iff]
        rintro ⟨q, hq, _⟩
        exact absurd hq (StackPrim_nil _ _)
      · rw [default_not_valid]
        intro h
        cases h
    | e :: rest =>
      exfalso
      have := stackMeasure_rest_lt env.nodes.size e rest
      omega
  | succ n ih =>
    intro s hm hdep
    match s with
    | [] =>
      rw [runAux_nil]
      constructor
      · rw [default_not_valid]
        simp only [Bool.false_eq_true, false_iff]
        rintro ⟨q, hq, _⟩
        exact absurd hq (StackPrim_nil _ _)
      · rw [default_not_valid]
        intro h
        cases h
    | e :: rest =>
      have hmeas := stackMeasure_rest_lt env.nodes.size e rest
      have hpr : ¬ (e.mint : WithTop ℚ) > (default : Intersection P).t := by
        rw [default_t]
        exact not_top_lt
      have hde := hdep e (List.mem_cons_self e rest)
      have hsize : e.i < env.nodes.size := by
        obtain ⟨d, hd⟩ := hde
        exact DepthLE_lt_size hd
      have hdep_rest : ∀ e' ∈ rest, ∃ d, DepthLE env.nodes e'.i d :=
        fun e' he' => hdep e' (List.mem_cons_of_mem e he')
      by_cases hro : (nodeAt env.nodes e.i).rightOffset = 0
      · -- leaf branch
        rcases leafScan_true_spec env.intersector env.prims ray
            (nodeAt env.nodes e.i).nPrims (nodeAt env.nodes e.i).start
            default with ⟨hnone, hok⟩ | ⟨o, ho, hov, herr⟩
        · rw [runAux_cons_leaf_ok env ray true e rest default default hpr hro hok]
          obtain ⟨ihIff, ihPart⟩ := ih rest (by omega) hdep_rest
          constructor
          · rw [ihIff]
            constructor
            · rintro ⟨q, hq, hv⟩
              exact ⟨q, StackPrim_cons.mpr (Or.inr hq), hv⟩
            · rintro ⟨q, hq, hv⟩
              rcases StackPrim_cons.mp hq with hqe | hqr
              · obtain ⟨_, hq1, hq2⟩ := (PrimUnder_leaf_iff hro).mp hqe
                obtain ⟨o, rfl⟩ :
                    ∃ o, q = (nodeAt env.nodes e.i).start + o :=
                  ⟨q - (nodeAt env.nodes e.i).start, by omega⟩
                rw [hitOf_eq_hitAt] at hv
                rw [hnone o (by omega)] at hv
                cases hv
              · exact ⟨q, hqr, hv⟩
          · intro hvld
            obtain ⟨q, hq, hv, he⟩ := ihPart hvld
            exact ⟨q, StackPrim_cons.mpr (Or.inr hq), hv, he⟩
        · rw [runAux_cons_leaf_error env ray true e rest default _ hpr hro herr]
          have hq : PrimUnder env.nodes e.i
              ((nodeAt env.nodes e.i).start + o) :=
            (PrimUnder_leaf_iff hro).mpr ⟨hsize, by omega, by omega⟩
          have hov' : (hitOf env ray
              ((nodeAt env.nodes e.i).start + o)).valid = true := by
            rw [hitOf_eq_hitAt]
            exact hov
          constructor
          · constructor
            · intro _
              exact ⟨(nodeAt env.nodes e.i).start + o,
                StackPrim_cons.mpr (Or.inl hq), hov'⟩
            · intro _
              exact hov
          · intro _
            exact ⟨(nodeAt env.nodes e.i).start + o,
              StackPrim_cons.mpr (Or.inl hq), hov', rfl⟩
      · -- internal branch
        rw [runAux_cons_push env ray true e rest default hpr hro]
        have hm' : stackMeasure env.nodes.size
            (childEntries env.nodes env.boxIntersect ray e.i ++ rest) ≤ n := by
          have := stackMeasure_step_push env ray e rest hro
          omega
        have hdep' : ∀ e' ∈
            childEntries env.nodes env.boxIntersect ray e.i ++ rest,
            ∃ d, DepthLE env.nodes e'.i d := by
          intro e' he'
          rcases List.mem_append.mp he' with h | h
          · exact childEntries_depth env.nodes env.boxIntersect ray e.i
              hde hro e' h
          · exact hdep_rest e' h
        obtain ⟨ihIff, ihPart⟩ := ih _ hm' hdep'
        have hconv : ∀ q, StackPrim env.nodes
            (childEntries env.nodes env.boxIntersect ray e.i ++ rest) q →
            (hitOf env ray q).valid = true →
            StackPrim env.nodes (e :: rest) q := by
          intro q hq hv
          rcases StackPrim_append.mp hq with hqc | hqr
          · obtain ⟨e', he', hpu⟩ := hqc
            rcases (childEntries_mem_iff _ _ _ _ _).mp he' with
              ⟨t0, f0, _, rfl⟩ | ⟨t1, f1, _, rfl⟩
            · exact StackPrim_cons.mpr (Or.inl (PrimUnder.left hsize hro hpu))
            · exact StackPrim_cons.mpr (Or.inl (PrimUnder.right hsize hro hpu))
          · exact StackPrim_cons.mpr (Or.inr hqr)
        constructor
        · rw [ihIff]
          constructor
          · rintro ⟨q, hq, hv⟩
            exact ⟨q, hconv q hq hv, hv⟩
          · rintro ⟨q, hq, hv⟩
            rcases StackPrim_cons.mp hq with hqe | hqr
            · exact ⟨q, StackPrim_append.mpr
                (Or.inl (StackPrim_childEntries env ray e.i henc hro q hqe hv)),
                hv⟩
            · exact ⟨q, StackPrim_append.mpr (Or.inr hqr), hv⟩
        · intro hvld
          obtain ⟨q, hq, hv, he⟩ := ihPart hvld
          exact ⟨q, hconv q hq hv, hv, he⟩

/-- The `closest`-fold over any index list keeps a tidy accumulator, only
decreases the distance, bounds every scanned hit, returns either the
accumulator or one of the scanned hits, and is valid iff the accumulator is
valid or some scanned hit is. -/
theorem foldl_closest_spec {P R : Type} [Inhabited P] (env : Env P R)
    (ray : R) (htidy : ∀ q, Tidy (hitOf env ray q)) :
    ∀ (l : List Nat) (acc : Intersection P), Tidy acc →
      Tidy (l.foldl (fun a q => closest a (hitOf env ray q)) acc) ∧
      (l.foldl (fun a q => closest a (hitOf env ray q)) acc).t ≤ acc.t ∧
      (∀ q ∈ l,
        (l.foldl (fun a q => closest a (hitOf env ray q)) acc).t ≤
          (hitOf env ray q).t) ∧
      ((l.foldl (fun a q => closest a (hitOf env ray q)) acc) = acc ∨
        ∃ q ∈ l,
          (l.foldl (fun a q => closest a (hitOf env ray q)) acc) =
            hitOf env ray q) ∧
      ((l.foldl (fun a q => closest a (hitOf env ray q)) acc).valid = true ↔
        (acc.valid = true ∨ ∃ q ∈ l, (hitOf env ray q).valid = true)) := by
  intro l
  induction l with
  | nil =>
    intro acc hacc
    refine ⟨hacc, le_refl _, ?_, Or.inl rfl, ?_⟩
    · intro q hq
      cases hq
    · simp
  | cons q0 l ihl =>
    intro acc hacc
    have hq0 : Tidy (hitOf env ray q0) := htidy q0
    have hacc' : Tidy (closest acc (hitOf env ray q0)) :=
      closest_tidy _ _ hacc hq0
    obtain ⟨ihT, ihLe, ihAll, ihMem, ihV⟩ := ihl (closest acc (hitOf env ray q0)) hacc'
    have hct : (closest acc (hitOf env ray q0)).t =
        min acc.t (hitOf env ray q0).t := closest_t _ _ hacc hq0
    rw [List.foldl_cons]
    refine ⟨ihT, ?_, ?_, ?_, ?_⟩
    · calc (l.foldl (fun a q => closest a (hitOf env ray q))
            (closest acc (hitOf env ray q0))).t ≤ _ := ihLe
        _ ≤ acc.t := by rw [hct]; exact min_le_left _ _
    · intro q hq
      rcases List.mem_cons.mp hq with rfl | hql
      · calc (l.foldl (fun a q => closest a (hitOf env ray q))
              (closest acc (hitOf env ray q))).t ≤ _ := ihLe
          _ ≤ (hitOf env ray q).t := by rw [hct]; exact min_le_right _ _
      · exact ihAll q hql
    · rcases ihMem with h | ⟨q, hql, he⟩
      · rcases closest_mem acc (hitOf env ray q0) with hc | hc
        · exact Or.inl (h.trans hc)
        · exact Or.inr ⟨q0, List.mem_cons_self _ _, h.trans hc⟩
      · exact Or.inr ⟨q, List.mem_cons_of_mem _ hql, he⟩
    · rw [ihV, closest_valid]
      constructor
      · rintro (hcv | ⟨q, hql, hv⟩)
        · rcases Bool.or_eq_true_iff.mp hcv with h | h
          · exact Or.inl h
          · exact Or.inr ⟨q0, List.mem_cons_self _ _, h⟩
        · exact Or.inr ⟨q, List.mem_cons_of_mem _ hql, hv⟩
      · rintro (hav | ⟨q, hql, hv⟩)
        · exact Or.inl (by rw [hav]; rfl)
        · rcases List.mem_cons.mp hql with rfl | hql'
          · exact Or.inl (by rw [hv, Bool.or_true])
          · exact Or.inr ⟨q, hql', hv⟩

/-- Characterisation of the brute-force reference scan on the components
needed to compare it with the traversal. -/
theorem bruteForce_spec {P R : Type} [Inhabited P] (env : Env P R) (ray : R)
    (htidy : ∀ q, Tidy (hitOf env ray q)) :
    Tidy (bruteForce env ray) ∧
    (∀ q, q < env.prims.size →
      (bruteForce env ray).t ≤ (hitOf env ray q).t) ∧
    ((bruteForce env ray) = default ∨
      ∃ q, q < env.prims.size ∧ (bruteForce env ray) = hitOf env ray q) ∧
    ((bruteForce env ray).valid = true ↔
      ∃ q, q < env.prims.size ∧ (hitOf env ray q).valid = true) := by
  obtain ⟨hT, hLe, hAll, hMem, hV⟩ :=
    foldl_closest_spec env ray htidy (List.range env.prims.size) default
      tidy_default
  refine ⟨hT, ?_, ?_, ?_⟩
  · intro q hq
    exact hAll q (List.mem_range.mpr hq)
  · rcases hMem with h | ⟨q, hq, he⟩
    · exact Or.inl h
    · exact Or.inr ⟨q, List.mem_range.mp hq, he⟩
  · unfold bruteForce
    rw [hV]
    constructor
    · rintro (h | ⟨q, hq, hv⟩)
      · rw [default_not_valid] at h
        cases h
      · exact ⟨q, List.mem_range.mp hq, hv⟩
    · rintro ⟨q, hq, hv⟩
      exact Or.inr ⟨q, List.mem_range.mpr hq, hv⟩

theorem StackPrim_initStack {ns : Array Node} {q : Nat} :
    StackPrim ns initStack q ↔ PrimUnder ns 0 q := by
  unfold initStack
  rw [StackPrim_cons]
  constructor
  · rintro (h | h)
    · exact h
    · exact absurd h (StackPrim_nil _ _)
  · exact Or.inl

theorem initStack_depth {P R : Type} [Inhabited P] (env : Env P R)
    (hwf : ∃ d, DepthLE env.nodes 0 d) :
    ∀ e' ∈ initStack, ∃ d, DepthLE env.nodes e'.i d := by
  intro e' he'
  rw [initStack, List.mem_singleton] at he'
  subst he'
  exact hwf

/-- C1: for every well-formed BVH (finite in-bounds tree, boxes enclosing
their subtrees' hits, leaves covering exactly the primitive array) and an
intersector respecting the invalid-means-`t = ⊤` sentinel convention of the
`Intersection` type, nearest-mode `traverse` returns an intersection whose
hit distance `t` equals that of the brute-force `closest`-fold over every
primitive of the array, and which is valid iff the brute-force result is
valid (iff the intersector reports a hit for some primitive). -/
theorem C1_nearest_matches_bruteforce {P R : Type} [Inhabited P]
    (env : Env P R) (ray : R)
    (hwf : ∃ d, DepthLE env.nodes 0 d)
    (henc : EnclosureOK env ray)
    (hcov : ∀ q, PrimUnder env.nodes 0 q ↔ q < env.prims.size)
    (htidy : ∀ q, Tidy (hitOf env ray q)) :
    (traverse env ray false).t = (bruteForce env ray).t ∧
    ((traverse env ray false).valid = true ↔
      (bruteForce env ray).valid = true) := by
  obtain ⟨bT, bAll, bMem, bV⟩ := bruteForce_spec env ray htidy
  obtain ⟨hT, hLe, hAll, hMem, hMono, hEx⟩ :=
    runAux_nearest_spec env ray henc
      (stackMeasure env.nodes.size initStack) initStack default
      (le_refl _) (Or.inr ⟨⟨0, -9999999⟩, rfl, hwf, rfl⟩) tidy_default
  rw [traverse_eq_runAux]
  constructor
  · apply le_antisymm
    · rcases bMem with hb | ⟨q, hq, hb⟩
      · rw [hb, default_t]
        exact le_top
      · by_cases hv : (hitOf env ray q).valid = true
        · rw [hb]
          exact hAll q (StackPrim_initStack.mpr ((hcov q).mpr hq)) hv
        · rw [hb, tidy_top_of_not_valid _ (htidy q) hv]
          exact le_top
    · rcases hMem with hm | ⟨q, hq, hv, hm⟩
      · rw [hm, default_t]
        exact le_top
      · rw [hm]
        exact bAll q ((hcov q).mp (StackPrim_initStack.mp hq))
  · rw [bV]
    constructor
    · intro hvld
      rcases hMem with hm | ⟨q, hq, hv, hm⟩
      · rw [hm, default_not_valid] at hvld
        cases hvld
      · exact ⟨q, (hcov q).mp (StackPrim_initStack.mp hq), hv⟩
    · rintro ⟨q, hq, hv⟩
      exact hEx ⟨q, StackPrim_initStack.mpr ((hcov q).mpr hq), hv⟩

/-- C2: for every well-formed BVH, occlusion-mode `traverse` returns a valid
intersection iff the intersector reports a valid hit for at least one
primitive of the array (what a brute-force scan would find); moreover a valid
result is exactly the intersection the intersector reported for some
primitive of the tree, returned as-is (not merged through `closest`). -/
theorem C2_occlusion_soundness {P R : Type} [Inhabited P]
    (env : Env P R) (ray : R)
    (hwf : ∃ d, DepthLE env.nodes 0 d)
    (henc : EnclosureOK env ray)
    (hcov : ∀ q, PrimUnder env.nodes 0 q ↔ q < env.prims.size) :
    ((traverse env ray true).valid = true ↔
      ∃ q, q < env.prims.size ∧ (hitOf env ray q).valid = true) ∧
    ((traverse env ray true).valid = true →
      ∃ q, q < env.prims.size ∧ (hitOf env ray q).valid = true ∧
        traverse env ray true = hitOf env ray q) := by
  obtain ⟨hIff, hPart⟩ :=
    runAux_occl_spec env ray henc (stackMeasure env.nodes.size initStack)
      initStack (le_refl _) (initStack_depth env hwf)
  rw [traverse_eq_runAux]
  constructor
  · rw [hIff]
    constructor
    · rintro ⟨q, hq, hv⟩
      exact ⟨q, (hcov q).mp (StackPrim_initStack.mp hq), hv⟩
    · rintro ⟨q, hq, hv⟩
      exact ⟨q, StackPrim_initStack.mpr ((hcov q).mpr hq), hv⟩
  · intro hvld
    obtain ⟨q, hq, hv, he⟩ := hPart hvld
    exact ⟨q, (hcov q).mp (StackPrim_initStack.mp hq), hv, he⟩

/-- C7: for every well-formed BVH whose boxes enclose their subtrees' hits
(in particular an intersector that only reports hits inside the leaf boxes),
a ray that misses the root node's bounding box yields an invalid
intersection, in both traversal modes. -/
theorem C7_root_miss_invalid {P R : Type} [Inhabited P]
    (env : Env P R) (ray : R) (occl : Bool)
    (hwf : ∃ d, DepthLE env.nodes 0 d)
    (henc : EnclosureOK env ray)
    (hmiss : env.boxIntersect 0 ray = none) :
    (traverse env ray occl).valid = false := by
  have hnone := no_valid_under_missed env ray 0 henc hmiss
  cases occl with
  | false =>
    obtain ⟨hT, hLe, hAll, hMem, hMono, hEx⟩ :=
      runAux_nearest_spec env ray henc
        (stackMeasure env.nodes.size initStack) initStack default
        (le_refl _) (Or.inr ⟨⟨0, -9999999⟩, rfl, hwf, rfl⟩) tidy_default
    rw [traverse_eq_runAux]
    rcases hMem with hm | ⟨q, hq, hv, hm⟩
    · rw [hm]
      exact default_not_valid
    · exact absurd hv (hnone q (StackPrim_initStack.mp hq))
  | true =>
    obtain ⟨hIff, _⟩ :=
      runAux_occl_spec env ray henc (stackMeasure env.nodes.size initStack)
        initStack (le_refl _) (initStack_depth env hwf)
    rw [traverse_eq_runAux]
    cases hb : (runAux env ray true initStack default).1.valid with
    | false => rfl
    | true =>
      obtain ⟨q, hq, hv⟩ := hIff.mp hb
      exact absurd hv (hnone q (StackPrim_initStack.mp hq))

theorem envW_primUnder : ∀ j q, PrimUnder envW.nodes j q → j = 0 ∧ q = 0 := by
  intro j q h
  cases h with
  | leaf hj h0 h1 h2 =>
    have hsz : envW.nodes.size = 1 := rfl
    have hj0 : j = 0 := by omega
    subst hj0
    have hn : nodeAt envW.nodes 0 = ⟨0, 1, 0⟩ := by decide
    rw [hn] at h1 h2
    exact ⟨rfl, by simp at h1 h2; omega⟩
  | left hj h0 _ =>
    exfalso
    have hsz : envW.nodes.size = 1 := rfl
    have hj0 : j = 0 := by omega
    subst hj0
    exact h0 (by decide)
  | right hj h0 _ =>
    exfalso
    have hsz : envW.nodes.size = 1 := rfl
    have hj0 : j = 0 := by omega
    subst hj0
    exact h0 (by decide)

theorem envW_depth : DepthLE envW.nodes 0 1 :=
  DepthLE.leaf (by decide) (by decide)

theorem envW_cover : ∀ q, PrimUnder envW.nodes 0 q ↔ q < envW.prims.size := by
  intro q
  constructor
  · intro h
    have hq := (envW_primUnder 0 q h).2
    rw [hq]
    decide
  · intro hq
    have hsz : envW.prims.size = 1 := rfl
    have hq0 : q = 0 := by omega
    subst hq0
    exact PrimUnder.leaf (by decide) (by decide) (by decide) (by decide)

theorem envW_enc : EnclosureOK envW () := by
  intro j q h _
  obtain ⟨hj, hq⟩ := envW_primUnder j q h
  subst hj
  subst hq
  exact ⟨1, 2, rfl, by decide⟩

theorem envW_tidy : ∀ q, Tidy (hitOf envW () q) :=
  fun _ => tidy_of_valid _ rfl

/-- Witness for C1 at the concrete single-leaf environment. -/
theorem C1_witness :
    (traverse envW () false).t = (bruteForce envW ()).t ∧
    ((traverse envW () false).valid = true ↔
      (bruteForce envW ()).valid = true) :=
  C1_nearest_matches_bruteforce envW () ⟨1, envW_depth⟩ envW_enc envW_cover
    envW_tidy

/-- Witness for C2 at the concrete single-leaf environment. -/
theorem C2_witness :
    ((traverse envW () true).valid = true ↔
      ∃ q, q < envW.prims.size ∧ (hitOf envW () q).valid = true) ∧
    ((traverse envW () true).valid = true →
      ∃ q, q < envW.prims.size ∧ (hitOf envW () q).valid = true ∧
        traverse envW () true = hitOf envW () q) :=
  C2_occlusion_soundness envW () ⟨1, envW_depth⟩ envW_enc envW_cover

theorem envW3_depth : DepthLE envW3.nodes 0 1 :=
  DepthLE.leaf (by decide) (by decide)

theorem envW3_enc : EnclosureOK envW3 () := by
  intro j q _ hv
  have hfalse : (hitOf envW3 () q).valid = false := rfl
  rw [hfalse] at hv
  cases hv

/-- Witness for C7 at a single-leaf environment whose root box is missed. -/
theorem C7_witness : (traverse envW3 () true).valid = false :=
  C7_root_miss_invalid envW3 () true ⟨1, envW3_depth⟩ envW3_enc rfl

theorem DepthLE_mono {ns : Array Node} {j d : Nat} (h : DepthLE ns j d) :
    ∀ d', d ≤ d' → DepthLE ns j d' := by
  induction h with
  | leaf hj h0 =>
    intro d' hle
    obtain ⟨d'', rfl⟩ : ∃ d'', d' = d'' + 1 := ⟨d' - 1, by omega⟩
    exact DepthLE.leaf hj h0
  | node hj h0 hl hr ihl ihr =>
    intro d' hle
    obtain ⟨d'', rfl⟩ : ∃ d'', d' = d'' + 1 := ⟨d' - 1, by omega⟩
    exact DepthLE.node hj h0 (ihl d'' (by omega)) (ihr d'' (by omega))

theorem childEntries_shape {R : Type} (ns : Array Node)
    (boxI : Nat → R → Option (ℚ × ℚ)) (ray : R) (ni : Nat) :
    childEntries ns boxI ray ni = [] ∨
    (∃ t, childEntries ns boxI ray ni = [⟨ni + 1, t⟩]) ∨
    (∃ t, childEntries ns boxI ray ni =
      [⟨ni + (nodeAt ns ni).rightOffset, t⟩]) ∨
    (∃ t t', childEntries ns boxI ray ni =
      [⟨ni + 1, t⟩, ⟨ni + (nodeAt ns ni).rightOffset, t'⟩]) ∨
    (∃ t t', childEntries ns boxI ray ni =
      [⟨ni + (nodeAt ns ni).rightOffset, t⟩, ⟨ni + 1, t'⟩]) := by
  simp only [childEntries]
  rcases boxI (ni + 1) ray with _ | ⟨t0, f0⟩ <;>
    rcases boxI (ni + (nodeAt ns ni).rightOffset) ray with _ | ⟨t1, f1⟩
  · simp
  · simp
  · simp
  · by_cases hsw : t1 < t0 <;> simp [hsw]

theorem StackInv_push {ns : Array Node} {e : Traversal}
    {rest : List Traversal} {cap : Nat} {R : Type}
    (boxI : Nat → R → Option (ℚ × ℚ)) (ray : R)
    (h : StackInv ns (e :: rest) cap)
    (hro : (nodeAt ns e.i).rightOffset ≠ 0) :
    StackInv ns (childEntries ns boxI ray e.i ++ rest) cap := by
  obtain ⟨⟨d, hd, hle⟩, hrest⟩ := h
  obtain ⟨d', rfl, hdl, hdr⟩ := DepthLE_children hd hro
  rcases childEntries_shape ns boxI ray e.i with
    hce | ⟨t, hce⟩ | ⟨t, hce⟩ | ⟨t, t', hce⟩ | ⟨t, t', hce⟩ <;>
      rw [hce] <;> simp only [List.cons_append, List.nil_append]
  · exact hrest
  · exact ⟨⟨d', hdl, by omega⟩, hrest⟩
  · exact ⟨⟨d', hdr, by omega⟩, hrest⟩
  · exact ⟨⟨d', hdl, by simp only [List.length_cons]; omega⟩,
      ⟨d', hdr, by omega⟩, hrest⟩
  · exact ⟨⟨d', hdr, by simp only [List.length_cons]; omega⟩,
      ⟨d', hdl, by omega⟩, hrest⟩

/-- The maximum number of live stack entries over a loop run is bounded by
`cap` whenever the stack capacity invariant holds for `cap`. -/
theorem runAux_maxstack_le {P R : Type} [Inhabited P] (env : Env P R)
    (ray : R) (occl : Bool) (cap : Nat) :
    ∀ n s best, stackMeasure env.nodes.size s ≤ n →
      StackInv env.nodes s cap →
      (runAux env ray occl s best).2 ≤ cap := by
  intro n
  induction n with
  | zero =>
    intro s best hm hinv
    match s with
    | [] =>
      rw [runAux_nil]
      exact Nat.zero_le _
    | e :: rest =>
      exfalso
      have := stackMeasure_rest_lt env.nodes.size e rest
      omega
  | succ n ih =>
    intro s best hm hinv
    match s with
    | [] =>
      rw [runAux_nil]
      exact Nat.zero_le _
    | e :: rest =>
      have hmeas := stackMeasure_rest_lt env.nodes.size e rest
      obtain ⟨⟨d, hd, hdle⟩, hrest⟩ := hinv
      have hd1 := DepthLE_pos hd
      have hlen : rest.length + 1 ≤ cap := by omega
      by_cases hpr : (e.mint : WithTop ℚ) > best.t
      · rw [runAux_cons_prune env ray occl e rest best hpr]
        exact max_le hlen (ih rest best (by omega) hrest)
      · by_cases hro : (nodeAt env.nodes e.i).rightOffset = 0
        · rcases hls : leafScan env.intersector env.prims ray occl
              (nodeAt env.nodes e.i).start (nodeAt env.nodes e.i).nPrims
              best with hit | best2
          · rw [runAux_cons_leaf_error env ray occl e rest best hit hpr hro hls]
            exact hlen
          · rw [runAux_cons_leaf_ok env ray occl e rest best best2 hpr hro hls]
            exact max_le hlen (ih rest best2 (by omega) hrest)
        · rw [runAux_cons_push env ray occl e rest best hpr hro]
          have hm' : stackMeasure env.nodes.size
              (childEntries env.nodes env.boxIntersect ray e.i ++ rest) ≤ n := by
            have := stackMeasure_step_push env ray e rest hro
            omega
          exact max_le hlen
            (ih _ best hm'
              (StackInv_push env.boxIntersect ray ⟨⟨d, hd, hdle⟩, hrest⟩ hro))

/-- C4: for a BVH whose maximum root-to-leaf depth is at most the stack
capacity 64, the traversal's `todo` stack never holds more than 64 live
entries at once (so `stackptr` never exceeds 63, and no push ever writes at
or beyond index 64), in either traversal mode. -/
theorem C4_stack_never_overflows {P R : Type} [Inhabited P] (env : Env P R)
    (ray : R) (occl : Bool) (hd : DepthLE env.nodes 0 64) :
    traverseMaxStack env ray occl ≤ 64 := by
  rw [traverseMaxStack_eq_runAux]
  apply runAux_maxstack_le env ray occl 64
    (stackMeasure env.nodes.size initStack) initStack default (le_refl _)
  exact ⟨⟨64, hd, by simp [initStack]⟩, trivial⟩

theorem envW2_depth : DepthLE envW2.nodes 0 2 :=
  DepthLE.node (by decide) (by decide)
    (DepthLE.leaf (by decide) (by decide))
    (DepthLE.leaf (by decide) (by decide))

/-- Witness for C4 at the three-node environment. -/
theorem C4_witness : traverseMaxStack envW2 () false ≤ 64 :=
  C4_stack_never_overflows envW2 () false
    (DepthLE_mono envW2_depth 64 (by omega))

/-- C5: the traversal loop terminates on every well-formed input — its value
is stable once the fuel reaches the measure bound `3 ^ nodes.size`, in both
modes — and a leaf with `primitiveCount = 0` is visited, contributes
nothing, and traversal simply continues with the rest of the stack. -/
theorem C5_terminates_and_empty_leaf_noop {P R : Type} [Inhabited P]
    (env : Env P R) (ray : R) (occl : Bool) :
    (∀ fuel, 3 ^ env.nodes.size ≤ fuel →
      traverseAux env ray occl fuel initStack default =
        traverseAux env ray occl (3 ^ env.nodes.size) initStack default) ∧
    (∀ (e : Traversal) (rest : List Traversal) (best : Intersection P),
      (nodeAt env.nodes e.i).rightOffset = 0 →
      (nodeAt env.nodes e.i).nPrims = 0 →
      ¬ (e.mint : WithTop ℚ) > best.t →
      (runAux env ray occl (e :: rest) best).1 =
        (runAux env ray occl rest best).1) := by
  constructor
  · intro fuel hf
    rw [traverseAux_fuel_irrel env ray occl fuel initStack default
        (by rw [stackMeasure_initStack]; exact hf),
      traverseAux_fuel_irrel env ray occl (3 ^ env.nodes.size) initStack
        default (by rw [stackMeasure_initStack])]
  · intro e rest best hro hz hpr
    have hls : leafScan env.intersector env.prims ray occl
        (nodeAt env.nodes e.i).start (nodeAt env.nodes e.i).nPrims best =
          .ok best := by
      rw [hz]
      rfl
    rw [runAux_cons_leaf_ok env ray occl e rest best best hpr hro hls]

/-- Witness for C5: more fuel than the bound does not change the result, and
stepping over the empty root leaf of `envW4` leaves the best unchanged. -/
theorem C5_witness :
    traverseAux envW () false (3 ^ envW.nodes.size + 5) initStack default =
      traverseAux envW () false (3 ^ envW.nodes.size) initStack default ∧
    (runAux envW4 () false [⟨0, 3⟩] default).1 =
      (runAux envW4 () false [] default).1 :=
  ⟨(C5_terminates_and_empty_leaf_noop envW () false).1
      (3 ^ envW.nodes.size + 5) (by omega),
   (C5_terminates_and_empty_leaf_noop envW4 () false).2 ⟨0, 3⟩ [] default
      (by decide) (by decide) (by decide)⟩

/-- C6: when the loop processes an internal node whose two children's boxes
are both hit, the entries pushed carry each child's own box entry distance,
and the pushed stack (head = next node popped) starts with the child whose
entry distance is smaller — the right child exactly when `t1 < t0` strictly,
so on ties the left child (index `i+1`) is treated as the closer one — and
the loop then continues on exactly that stack. -/
theorem C6_front_to_back_order {P R : Type} [Inhabited P] (env : Env P R)
    (ray : R) (occl : Bool) (e : Traversal) (rest : List Traversal)
    (best : Intersection P) (t0 f0 t1 f1 : ℚ)
    (hpr : ¬ (e.mint : WithTop ℚ) > best.t)
    (hro : (nodeAt env.nodes e.i).rightOffset ≠ 0)
    (hb0 : env.boxIntersect (e.i + 1) ray = some (t0, f0))
    (hb1 : env.boxIntersect (e.i + (nodeAt env.nodes e.i).rightOffset) ray =
      some (t1, f1)) :
    childEntries env.nodes env.boxIntersect ray e.i =
      (if t1 < t0 then
        [⟨e.i + (nodeAt env.nodes e.i).rightOffset, t1⟩, ⟨e.i + 1, t0⟩]
       else
        [⟨e.i + 1, t0⟩, ⟨e.i + (nodeAt env.nodes e.i).rightOffset, t1⟩]) ∧
    (runAux env ray occl (e :: rest) best).1 =
      (runAux env ray occl
        (childEntries env.nodes env.boxIntersect ray e.i ++ rest) best).1 := by
  constructor
  · simp only [childEntries, hb0, hb1]
  · rw [runAux_cons_push env ray occl e rest best hpr hro]

/-- Witness for C6 at the three-node environment: both children of the root
are hit, the left one (entry `1`) is closer than the right one (entry `2`),
so the left child is on top of the pushed stack. -/
theorem C6_witness :
    childEntries envW2.nodes envW2.boxIntersect () 0 =
      (if (2 : ℚ) < 1 then
        [⟨0 + (nodeAt envW2.nodes 0).rightOffset, 2⟩, ⟨0 + 1, 1⟩]
       else
        [⟨0 + 1, 1⟩, ⟨0 + (nodeAt envW2.nodes 0).rightOffset, 2⟩]) ∧
    (runAux envW2 () false (⟨0, -1⟩ :: []) default).1 =
      (runAux envW2 () false
        (childEntries envW2.nodes envW2.boxIntersect () 0 ++ []) default).1 :=
  C6_front_to_back_order envW2 () false ⟨0, -1⟩ [] default 1 2 2 3
    (by decide) (by decide) (by decide) (by decide)

/-- C8: `traverse` is deterministic — it is a pure function of the
environment (node array, primitive array, intersector, box test), the ray
and the occlusion flag, so two calls with equal inputs return identical
intersections, and since the environment is taken and returned unchanged by
value, repeated or interleaved calls cannot influence one another. -/
theorem C8_deterministic {P R : Type} [Inhabited P] (env1 env2 : Env P R)
    (ray1 ray2 : R) (occl1 occl2 : Bool) (henv : env1 = env2)
    (hray : ray1 = ray2) (hocc : occl1 = occl2) :
    traverse env1 ray1 occl1 = traverse env2 ray2 occl2 := by
  subst henv
  subst hray
  subst hocc
  rfl

/-- Witness for C8. -/
theorem C8_witness : traverse envW () false = traverse envW () false :=
  C8_deterministic envW envW () () false false rfl rfl rfl

theorem map_fst_eq_cases {α β : Type} (fo go : Option (α × β))
    (h : Option.map Prod.fst fo = Option.map Prod.fst go) :
    (fo = none ∧ go = none) ∨
    (∃ t a b, fo = some (t, a) ∧ go = some (t, b)) := by
  rcases fo with _ | ⟨t, a⟩ <;> rcases go with _ | ⟨t', b⟩
  · exact Or.inl ⟨rfl, rfl⟩
  · simp at h
  · simp at h
  · simp at h
    exact Or.inr ⟨t, a, b, rfl, by rw [h]⟩

theorem childEntries_congr {R : Type} (nodes : Array Node)
    (f g : Nat → R → Option (ℚ × ℚ)) (ray : R) (ni : Nat)
    (h0 : Option.map Prod.fst (f (ni + 1) ray) =
      Option.map Prod.fst (g (ni + 1) ray))
    (h1 : Option.map Prod.fst (f (ni + (nodeAt nodes ni).rightOffset) ray) =
      Option.map Prod.fst (g (ni + (nodeAt nodes ni).rightOffset) ray)) :
    childEntries nodes f ray ni = childEntries nodes g ray ni := by
  rcases map_fst_eq_cases _ _ h0 with ⟨hf0, hg0⟩ | ⟨t0, a0, b0, hf0, hg0⟩ <;>
    rcases map_fst_eq_cases _ _ h1 with ⟨hf1, hg1⟩ | ⟨t1, a1, b1, hf1, hg1⟩ <;>
    simp only [childEntries, hf0, hg0, hf1, hg1]

/-- Two traversals over the same nodes, primitives and intersector whose box
tests report the same hit flags and entry distances at every child index
(`j ≥ 1`) compute identical results with identical stack behaviour, whatever
the exit distances are and whatever either test reports for the root box. -/
theorem traverseAux_congr_box {P R : Type} [Inhabited P]
    (env1 env2 : Env P R) (ray : R) (occl : Bool)
    (hn : env1.nodes = env2.nodes) (hp : env1.prims = env2.prims)
    (hs : env1.intersector = env2.intersector)
    (hagree : ∀ j, 1 ≤ j → Option.map Prod.fst (env1.boxIntersect j ray) =
      Option.map Prod.fst (env2.boxIntersect j ray)) :
    ∀ fuel s best, traverseAux env1 ray occl fuel s best =
      traverseAux env2 ray occl fuel s best := by
  intro fuel
  induction fuel with
  | zero =>
    intro s best
    cases s <;> rfl
  | succ fuel ih =>
    intro s best
    cases s with
    | nil => rfl
    | cons e rest =>
      rw [traverseAux_succ_cons, traverseAux_succ_cons, ← hn, ← hp, ← hs]
      by_cases hpr : (e.mint : WithTop ℚ) > best.t
      · simp only [hpr, if_true]
        rw [ih rest best]
      · by_cases hro : (nodeAt env1.nodes e.i).rightOffset = 0
        · simp only [hpr, if_false, hro, if_true]
          rcases hls : leafScan env1.intersector env1.prims ray occl
              (nodeAt env1.nodes e.i).start (nodeAt env1.nodes e.i).nPrims
              best with hit | best2
          · simp [hls]
          · simp only [hls]
            rw [ih rest best2]
        · simp only [hpr, if_false, hro]
          have hro1 : 1 ≤ (nodeAt env1.nodes e.i).rightOffset :=
            Nat.one_le_iff_ne_zero.mpr hro
          rw [childEntries_congr env1.nodes env1.boxIntersect
              env2.boxIntersect ray e.i (hagree (e.i + 1) (by omega))
              (hagree (e.i + (nodeAt env1.nodes e.i).rightOffset) (by omega)),
            ih _ best]

/-- C10: the result of `traverse` does not depend on the box exit distances:
if two box tests report the same hit flags and the same entry distances for
every node (arbitrary exit distances), traversal over the same nodes,
primitives and intersector returns identical intersections. -/
theorem C10_exit_distances_irrelevant {P R : Type} [Inhabited P]
    (env1 env2 : Env P R) (ray : R) (occl : Bool)
    (hn : env1.nodes = env2.nodes) (hp : env1.prims = env2.prims)
    (hs : env1.intersector = env2.intersector)
    (hagree : ∀ j, Option.map Prod.fst (env1.boxIntersect j ray) =
      Option.map Prod.fst (env2.boxIntersect j ray)) :
    traverse env1 ray occl = traverse env2 ray occl := by
  unfold traverse
  rw [← hn,
    traverseAux_congr_box env1 env2 ray occl hn hp hs (fun j _ => hagree j)
      (3 ^ env1.nodes.size) initStack default]

/-- Witness for C10: `envW2` and `envW2b` differ only in box exit
distances and traverse to the same intersection. -/
theorem C10_witness : traverse envW2 () false = traverse envW2b () false :=
  C10_exit_distances_irrelevant envW2 envW2b () false (by decide) (by decide)
    rfl
    (by
      intro j
      show Option.map Prod.fst
          (if j = 1 then some ((1 : ℚ), (2 : ℚ))
           else if j = 2 then some (2, 3) else some (0, 1)) =
        Option.map Prod.fst
          (if j = 1 then some ((1 : ℚ), (9 : ℚ))
           else if j = 2 then some (2, 7) else some (0, 5))
      by_cases h1 : j = 1
      · simp [h1]
      · by_cases h2 : j = 2 <;> simp [h1, h2])

/-- C9: the ray is never tested against the root node's own bounding box:
the root is processed unconditionally (its sentinel entry `-9999999` can
never exceed the initial best's `⊤`), only child indices (`j ≥ 1`) are ever
box-tested — so changing what the box test reports for index 0 (and for
nothing else) cannot change the result — and when the root is a leaf the
intersector is invoked on the root's primitives for every ray, the result
being exactly the leaf scan of the root's primitive range. -/
theorem C9_root_box_never_tested {P R : Type} [Inhabited P]
    (env1 env2 : Env P R) (ray : R) (occl : Bool)
    (hn : env1.nodes = env2.nodes) (hp : env1.prims = env2.prims)
    (hs : env1.intersector = env2.intersector)
    (hagree : ∀ j, 1 ≤ j →
      env1.boxIntersect j ray = env2.boxIntersect j ray) :
    traverse env1 ray occl = traverse env2 ray occl ∧
    ((nodeAt env1.nodes 0).rightOffset = 0 →
      traverse env1 ray occl =
        (match leafScan env1.intersector env1.prims ray occl
            (nodeAt env1.nodes 0).start (nodeAt env1.nodes 0).nPrims
            default with
         | .error hit => hit
         | .ok best2 => best2)) := by
  constructor
  · unfold traverse
    rw [← hn,
      traverseAux_congr_box env1 env2 ray occl hn hp hs
        (fun j hj => by rw [hagree j hj]) (3 ^ env1.nodes.size) initStack
        default]
  · intro hro
    rw [traverse_eq_runAux]
    have hpr : ¬ ((⟨0, -9999999⟩ : Traversal).mint : WithTop ℚ) >
        (default : Intersection P).t := by
      rw [default_t]
      exact not_top_lt
    unfold initStack
    rcases hls : leafScan env1.intersector env1.prims ray occl
        (nodeAt env1.nodes 0).start (nodeAt env1.nodes 0).nPrims
        (default : Intersection P) with hit | best2
    · rw [runAux_cons_leaf_error env1 ray occl ⟨0, -9999999⟩ [] default hit
        hpr hro hls]
    · rw [runAux_cons_leaf_ok env1 ray occl ⟨0, -9999999⟩ [] default best2
        hpr hro hls, runAux_nil]

/-- Witness for C9: `envW` and `envW5` differ only in the root box (hit in
one, missed in the other) and traverse identically; the root is a leaf and
the result is the scan of its single primitive. -/
theorem C9_witness :
    traverse envW () false = traverse envW5 () false ∧
    ((nodeAt envW.nodes 0).rightOffset = 0 →
      traverse envW () false =
        (match leafScan envW.intersector envW.prims () false
            (nodeAt envW.nodes 0).start (nodeAt envW.nodes 0).nPrims
            default with
         | .error hit => hit
         | .ok best2 => best2)) :=
  C9_root_box_never_tested envW envW5 () false (by decide) (by decide) rfl
    (by
      intro j hj
      show some ((1 : ℚ), (2 : ℚ)) =
        if j = 0 then none else some ((1 : ℚ), (2 : ℚ))
      rw [if_neg (by omega)])

theorem closest_eq_left {P : Type} (a b : Intersection P) (ha : Tidy a)
    (hb : b.valid = true) (hlt : a.t < b.t) : closest a b = a := by
  have hav : a.valid = true :=
    tidy_valid_of_t_lt_top a ha (lt_of_lt_of_le hlt le_top)
  unfold closest
  simp [hav, hb, hlt]

theorem leafScan_false_ok {P R : Type} [Inhabited P]
    (sector : P → R → Intersection P) (prims : Array P) (ray : R) :
    ∀ n idx best, ∃ best2,
      leafScan sector prims ray false idx n best = .ok best2 := by
  intro n
  induction n with
  | zero => intro idx best; exact ⟨best, rfl⟩
  | succ n ih =>
    intro idx best
    rw [leafScan_succ]
    by_cases hv : (hitAt sector prims ray idx).valid = true
    · simp only [hv, if_true]
      simpa using ih (idx + 1) (closest best (hitAt sector prims ray idx))
    · simp only [hv, if_false]
      simpa using ih (idx + 1) best

/-- Scanning a leaf all of whose valid hits are strictly farther than the
running best leaves the best unchanged. -/
theorem leafScan_false_noop {P R : Type} [Inhabited P]
    (sector : P → R → Intersection P) (prims : Array P) (ray : R) :
    ∀ n idx best, Tidy best →
      (∀ o, o < n → (hitAt sector prims ray (idx + o)).valid = true →
        best.t < (hitAt sector prims ray (idx + o)).t) →
      leafScan sector prims ray false idx n best = .ok best := by
  intro n
  induction n with
  | zero => intro idx best _ _; rfl
  | succ n ih =>
    intro idx best hbt habove
    rw [leafScan_succ]
    by_cases hv : (hitAt sector prims ray idx).valid = true
    · have h0 := habove 0 (by omega) (by simpa using hv)
      have hcl : closest best (hitAt sector prims ray idx) = best :=
        closest_eq_left _ _ hbt hv (by simpa using h0)
      simp only [hv, if_true]
      rw [if_neg (by simp), hcl]
      apply ih (idx + 1) best hbt
      intro o ho hov
      have harith : idx + (o + 1) = (idx + 1) + o := by omega
      have := habove (o + 1) (by omega) (by rw [harith]; exact hov)
      rw [harith] at this
      exact this
    · simp only [hv, if_false]
      apply ih (idx + 1) best hbt
      intro o ho hov
      have harith : idx + (o + 1) = (idx + 1) + o := by omega
      have := habove (o + 1) (by omega) (by rw [harith]; exact hov)
      rw [harith] at this
      exact this

/-- Frame rule for the no-prune nearest-mode loop: running the loop on a
stack `s1 ++ s2` is running it on `s1`, then on `s2` from the best the first
run produced.  (Nearest mode only: occlusion mode can return early.) -/
theorem runNPAux_frame {P R : Type} [Inhabited P] (env : Env P R) (ray : R) :
    ∀ n s1 s2 best, stackMeasure env.nodes.size s1 ≤ n →
      (runNPAux env ray false (s1 ++ s2) best).1 =
        (runNPAux env ray false s2 (runNPAux env ray false s1 best).1).1 := by
  intro n
  induction n with
  | zero =>
    intro s1 s2 best hm
    match s1 with
    | [] =>
      rw [List.nil_append, runNPAux_nil]
    | e :: rest =>
      exfalso
      have := stackMeasure_rest_lt env.nodes.size e rest
      omega
  | succ n ih =>
    intro s1 s2 best hm
    match s1 with
    | [] =>
      rw [List.nil_append, runNPAux_nil]
    | e :: rest =>
      have hmeas := stackMeasure_rest_lt env.nodes.size e rest
      rw [List.cons_append]
      by_cases hro : (nodeAt env.nodes e.i).rightOffset = 0
      · obtain ⟨best2, hls⟩ := leafScan_false_ok env.intersector env.prims
          ray (nodeAt env.nodes e.i).nPrims (nodeAt env.nodes e.i).start best
        rw [runNPAux_cons_leaf_ok env ray false e (rest ++ s2) best best2
            hro hls,
          runNPAux_cons_leaf_ok env ray false e rest best best2 hro hls]
        exact ih rest s2 best2 (by omega)
      · rw [runNPAux_cons_push env ray false e (rest ++ s2) best hro,
          runNPAux_cons_push env ray false e rest best hro,
          ← List.append_assoc]
        have := stackMeasure_step_push env ray e rest hro
        exact ih _ s2 best (by omega)

/-- Running the no-prune nearest-mode loop over a stack of well-formed
subtrees all of whose valid hits are strictly farther than the incoming best
returns the best unchanged: every extra candidate loses to it in `closest`. -/
theorem runNPAux_noop {P R : Type} [Inhabited P] (env : Env P R) (ray : R)
    (best : Intersection P) (htb : Tidy best) :
    ∀ n s, stackMeasure env.nodes.size s ≤ n →
      (∀ e' ∈ s, ∃ d, DepthLE env.nodes e'.i d) →
      (∀ e' ∈ s, ∀ q, PrimUnder env.nodes e'.i q →
        (hitOf env ray q).valid = true → best.t < (hitOf env ray q).t) →
      (runNPAux env ray false s best).1 = best := by
  intro n
  induction n with
  | zero =>
    intro s hm hdep habove
    match s with
    | [] => rw [runNPAux_nil]
    | e :: rest =>
      exfalso
      have := stackMeasure_rest_lt env.nodes.size e rest
      omega
  | succ n ih =>
    intro s hm hdep habove
    match s with
    | [] => rw [runNPAux_nil]
    | e :: rest =>
      have hmeas := stackMeasure_rest_lt env.nodes.size e rest
      have hde := hdep e (List.mem_cons_self e rest)
      have hsize : e.i < env.nodes.size := by
        obtain ⟨d, hd⟩ := hde
        exact DepthLE_lt_size hd
      have hdep_rest : ∀ e' ∈ rest, ∃ d, DepthLE env.nodes e'.i d :=
        fun e' he' => hdep e' (List.mem_cons_of_mem e he')
      have habove_rest : ∀ e' ∈ rest, ∀ q, PrimUnder env.nodes e'.i q →
          (hitOf env ray q).valid = true →
          best.t < (hitOf env ray q).t :=
        fun e' he' => habove e' (List.mem_cons_of_mem e he')
      by_cases hro : (nodeAt env.nodes e.i).rightOffset = 0
      · have hls : leafScan env.intersector env.prims ray false
            (nodeAt env.nodes e.i).start (nodeAt env.nodes e.i).nPrims best =
              .ok best := by
          apply leafScan_false_noop env.intersector env.prims ray _ _ best htb
          intro o ho hov
          have hq : PrimUnder env.nodes e.i
              ((nodeAt env.nodes e.i).start + o) :=
            (PrimUnder_leaf_iff hro).mpr ⟨hsize, by omega, by omega⟩
          have := habove e (List.mem_cons_self e rest) _ hq
            (by rw [hitOf_eq_hitAt]; exact hov)
          rw [hitOf_eq_hitAt] at this
          exact this
        rw [runNPAux_cons_leaf_ok env ray false e rest best best hro hls]
        exact ih rest (by omega) hdep_rest habove_rest
      · rw [runNPAux_cons_push env ray false e rest best hro]
        have hm' : stackMeasure env.nodes.size
            (childEntries env.nodes env.boxIntersect ray e.i ++ rest) ≤ n := by
          have := stackMeasure_step_push env ray e rest hro
          omega
        apply ih _ hm'
        · intro e' he'
          rcases List.mem_append.mp he' with h | h
          · exact childEntries_depth env.nodes env.boxIntersect ray e.i
              hde hro e' h
          · exact hdep_rest e' h
        · intro e' he' q hq hv
          rcases List.mem_append.mp he' with h | h
          · rcases (childEntries_mem_iff _ _ _ _ _).mp h with
              ⟨t0, f0, _, rfl⟩ | ⟨t1, f1, _, rfl⟩
            · exact habove e (List.mem_cons_self e rest) q
                (PrimUnder.left hsize hro hq) hv
            · exact habove e (List.mem_cons_self e rest) q
                (PrimUnder.right hsize hro hq) hv
          · exact habove_rest e' h q hq hv

/-- Bisimulation between the pruned and the unpruned nearest-mode loops:
whenever the pruned loop discards an entry, every hit in that entry's
subtree is strictly farther than the current best, so the unpruned loop's
extra traversal of that subtree leaves its best unchanged. -/
theorem runAux_eq_runNPAux {P R : Type} [Inhabited P] (env : Env P R)
    (ray : R) (henc : EnclosureOK env ray) :
    ∀ n s best, stackMeasure env.nodes.size s ≤ n →
      ((∀ e' ∈ s, GoodEntry env ray e') ∨
        (∃ e0, s = [e0] ∧ (∃ d, DepthLE env.nodes e0.i d) ∧
          best = default)) →
      Tidy best →
      (runAux env ray false s best).1 = (runNPAux env ray false s best).1 := by
  intro n
  induction n with
  | zero =>
    intro s best hm hinv htidy
    match s with
    | [] => rw [runAux_nil, runNPAux_nil]
    | e :: rest =>
      exfalso
      have := stackMeasure_rest_lt env.nodes.size e rest
      omega
  | succ n ih =>
    intro s best hm hinv htidy
    match s with
    | [] => rw [runAux_nil, runNPAux_nil]
    | e :: rest =>
      have hmeas := stackMeasure_rest_lt env.nodes.size e rest
      have hde : ∃ d, DepthLE env.nodes e.i d := by
        rcases hinv with hg | ⟨e0, hs, hd0, _⟩
        · exact (hg e (List.mem_cons_self e rest)).1
        · have he0 : e = e0 := by
            simp at hs
            exact hs.1
          rw [he0]
          exact hd0
      have hrest_good : ∀ e' ∈ rest, GoodEntry env ray e' := by
        rcases hinv with hg | ⟨e0, hs, _, _⟩
        · intro e' he'
          exact hg e' (List.mem_cons_of_mem e he')
        · have hre : rest = [] := by
            simp at hs
            exact hs.2
          rw [hre]
          intro e' he'
          exact absurd he' (List.not_mem_nil e')
      by_cases hpr : (e.mint : WithTop ℚ) > best.t
      · have hgood_e : GoodEntry env ray e := by
          rcases hinv with hg | ⟨e0, hs, hd0, hbd⟩
          · exact hg e (List.mem_cons_self e rest)
          · exfalso
            rw [hbd] at hpr
            exact not_top_lt hpr
        have h1 : (runNPAux env ray false (e :: rest) best).1 =
            (runNPAux env ray false rest
              (runNPAux env ray false [e] best).1).1 := by
          have := runNPAux_frame env ray
            (stackMeasure env.nodes.size [e]) [e] rest best (le_refl _)
          simpa using this
        have h2 : (runNPAux env ray false [e] best).1 = best := by
          apply runNPAux_noop env ray best htidy
            (stackMeasure env.nodes.size [e]) [e] (le_refl _)
          · intro e' he'
            rw [List.mem_singleton] at he'
            subst he'
            exact hgood_e.1
          · intro e' he' q hq hv
            rw [List.mem_singleton] at he'
            subst he'
            exact lt_of_lt_of_le hpr (hgood_e.2 q hq hv)
        rw [runAux_cons_prune env ray false e rest best hpr, h1, h2]
        exact ih rest best (by omega) (Or.inl hrest_good) htidy
      · by_cases hro : (nodeAt env.nodes e.i).rightOffset = 0
        · obtain ⟨best2, hls, hT2, _, _, _, _, _⟩ :=
            leafScan_false_spec env.intersector env.prims ray
              (nodeAt env.nodes e.i).nPrims (nodeAt env.nodes e.i).start
              best htidy
          rw [runAux_cons_leaf_ok env ray false e rest best best2 hpr hro hls,
            runNPAux_cons_leaf_ok env ray false e rest best best2 hro hls]
          exact ih rest best2 (by omega) (Or.inl hrest_good) hT2
        · rw [runAux_cons_push env ray false e rest best hpr hro,
            runNPAux_cons_push env ray false e rest best hro]
          have hm' : stackMeasure env.nodes.size
              (childEntries env.nodes env.boxIntersect ray e.i ++ rest) ≤ n := by
            have := stackMeasure_step_push env ray e rest hro
            omega
          have hnew_good : ∀ e' ∈
              childEntries env.nodes env.boxIntersect ray e.i ++ rest,
              GoodEntry env ray e' := by
            intro e' he'
            rcases List.mem_append.mp he' with h | h
            · exact childEntries_good env ray e.i henc hde hro e' h
            · exact hrest_good e' h
          exact ih _ best hm' (Or.inl hnew_good) htidy

/-- C3: removing the near-distance prune check from nearest-mode traversal
does not change the returned intersection (payload included), for every
well-formed BVH whose boxes enclose their subtrees' hits: pruning is purely
a performance optimization. -/
theorem C3_prune_is_pure_optimization {P R : Type} [Inhabited P]
    (env : Env P R) (ray : R) (hwf : ∃ d, DepthLE env.nodes 0 d)
    (henc : EnclosureOK env ray) :
    traverseNP env ray false = traverse env ray false := by
  rw [traverse_eq_runAux, traverseNP_eq_runNPAux]
  exact (runAux_eq_runNPAux env ray henc
    (stackMeasure env.nodes.size initStack) initStack default (le_refl _)
    (Or.inr ⟨⟨0, -9999999⟩, rfl, hwf, rfl⟩) tidy_default).symm

theorem envW2_primUnder : ∀ j q, PrimUnder envW2.nodes j q →
    (j = 0 ∧ q < 2) ∨ (j = 1 ∧ q = 0) ∨ (j = 2 ∧ q = 1) := by
  intro j q h
  induction h with
  | @leaf j' q' hj h0 h1 h2 =>
    have hsz : envW2.nodes.size = 3 := rfl
    have hj3 : j' < 3 := by omega
    clear hj
    interval_cases j'
    · exact absurd h0 (by decide)
    · have hn : nodeAt envW2.nodes 1 = ⟨0, 1, 0⟩ := by decide
      rw [hn] at h1 h2
      simp at h1 h2
      right
      left
      exact ⟨rfl, by omega⟩
    · have hn : nodeAt envW2.nodes 2 = ⟨1, 1, 0⟩ := by decide
      rw [hn] at h1 h2
      simp at h1 h2
      right
      right
      exact ⟨rfl, by omega⟩
  | @left j' q' hj h0 hsub ihsub =>
    have hsz : envW2.nodes.size = 3 := rfl
    have hj3 : j' < 3 := by omega
    clear hj
    interval_cases j'
    · rcases ihsub with ⟨h, _⟩ | ⟨_, hq⟩ | ⟨h, _⟩
      · cases h
      · exact Or.inl ⟨rfl, by omega⟩
      · cases h
    · exact absurd (by decide : (nodeAt envW2.nodes 1).rightOffset = 0) h0
    · exact absurd (by decide : (nodeAt envW2.nodes 2).rightOffset = 0) h0
  | @right j' q' hj h0 hsub ihsub =>
    have hsz : envW2.nodes.size = 3 := rfl
    have hj3 : j' < 3 := by omega
    clear hj
    interval_cases j'
    · have hoff : 0 + (nodeAt envW2.nodes 0).rightOffset = 2 := by decide
      rw [hoff] at ihsub
      rcases ihsub with ⟨h, _⟩ | ⟨h, _⟩ | ⟨_, hq⟩
      · cases h
      · cases h
      · exact Or.inl ⟨rfl, by omega⟩
    · exact absurd (by decide : (nodeAt envW2.nodes 1).rightOffset = 0) h0
    · exact absurd (by decide : (nodeAt envW2.nodes 2).rightOffset = 0) h0

theorem envW2_enc : EnclosureOK envW2 () := by
  intro j q h hv
  rcases envW2_primUnder j q h with ⟨rfl, hq⟩ | ⟨rfl, rfl⟩ | ⟨rfl, rfl⟩
  · refine ⟨0, 1, rfl, ?_⟩
    interval_cases q
    · decide
    · decide
  · exact ⟨1, 2, rfl, by decide⟩
  · exact ⟨2, 3, rfl, by decide⟩

/-- Witness for C3 at the three-node environment: both loops return the
nearest hit `t = 3`. -/
theorem C3_witness : traverseNP envW2 () false = traverse envW2 () false :=
  C3_prune_is_pure_optimization envW2 () ⟨2, envW2_depth⟩ envW2_enc

end FastBVH
